import Mathlib

/-!
Shallow embedding of the qet concurrent garbage collector and its companion
data structures (src/qet/gc.hpp, gc.cpp, string.cpp, table.cpp, deque.hpp).

Colors are machine integers in the source (enum class Color : intptr_t) with
WHITE = 0 or 1, BLACK = WHITE XOR 1, GRAY = 2, RED = 3.  We model them as Nat.
-/

namespace Qet

/-- Color::GRAY = 2 (gc.hpp line 93). -/
def GRAY : Nat := 2

/-- Color::RED = 3 (gc.hpp line 94). -/
def RED : Nat := 3

/-- CollectionContext carries the epoch's WHITE; BLACK() is WHITE XOR 1
(gc.hpp lines 319-322). -/
structure Ctx where
  WHITE : Nat

/-- CollectionContext::BLACK(): Color{WHITE ^ 1}. -/
def Ctx.BLACK (c : Ctx) : Nat := c.WHITE ^^^ 1

/-- An epoch WHITE is a single bit: 0 or 1. -/
def validWHITE (w : Nat) : Prop := w = 0 ∨ w = 1

instance (w : Nat) : Decidable (validWHITE w) := by
  unfold validWHITE; infer_instance

/-!
## Object::_gc_shade and Leaf<T>::_gc_shade (gc.hpp lines 381-390, 422-429)

Each is a compare-exchange on the object's color plus (for the non-leaf
version) a write of the mutator-local dirty flag.  We model the relevant
state as the color together with the calling mutator's dirty flag, and
each operation as a function on that state.
-/

/-- Result of Object::_gc_shade: if color == ctx.WHITE, CAS color to GRAY and
set local.dirty; otherwise nothing changes.  Returns (color, dirty). -/
def Object_gc_shade (ctx : Ctx) (color : Nat) (dirty : Bool) : Nat × Bool :=
  if color = ctx.WHITE then (GRAY, true) else (color, dirty)

/-- Result of Leaf<T>::_gc_shade: if color == ctx.WHITE, CAS color to
ctx.BLACK(); the dirty flag is never touched.  Returns (color, dirty). -/
def Leaf_gc_shade (ctx : Ctx) (color : Nat) (dirty : Bool) : Nat × Bool :=
  if color = ctx.WHITE then (ctx.BLACK, dirty) else (color, dirty)

/-- C5: for a non-leaf object, shade turns WHITE into GRAY and sets the dirty
flag exactly when the CAS succeeds; any other observed color (GRAY, BLACK,
RED) leaves both the color and the dirty flag unchanged.  For a leaf object,
shade turns WHITE directly into BLACK and never changes the dirty flag. -/
theorem shade_spec (ctx : Ctx) (color : Nat) (dirty : Bool) :
    (color = ctx.WHITE →
      Object_gc_shade ctx color dirty = (GRAY, true) ∧
      Leaf_gc_shade ctx color dirty = (ctx.BLACK, dirty)) ∧
    (color ≠ ctx.WHITE →
      Object_gc_shade ctx color dirty = (color, dirty) ∧
      Leaf_gc_shade ctx color dirty = (color, dirty)) := by
  constructor
  · intro h
    simp [Object_gc_shade, Leaf_gc_shade, h]
  · intro h
    simp [Object_gc_shade, Leaf_gc_shade, h]

/-- Witness for shade_spec at a concrete input: WHITE = 0, color = 0. -/
theorem shade_spec_witness :
    Object_gc_shade ⟨0⟩ 0 false = (GRAY, true) ∧
    Leaf_gc_shade ⟨0⟩ 0 false = (1, false) := by
  have h := shade_spec ⟨0⟩ 0 false
  refine ⟨(h.1 rfl).1, ?_⟩
  have h2 := (h.1 rfl).2
  simpa [Ctx.BLACK] using h2

/-!
## Atomic<StrongPtr<T>> write barrier (gc.hpp lines 445-487)

Pointers are modeled as Option Nat (none = nullptr).  gc::shade(object)
is a no-op on null (gc.hpp lines 359-369); on non-null it shades the object.
We record the sequence of shaded (non-null) pointers in a list, most recent
first, so that the theorems can speak about exactly which objects each
operation shades.
-/

/-- State of one atomic strong-pointer field together with the trace of
pointers shaded so far. -/
structure StrongState where
  inner : Option Nat
  shaded : List Nat

/-- gc::shade(const Object*): null check then shade (gc.hpp 365-369);
we record the shaded pointer. -/
def shadePtr (p : Option Nat) (tr : List Nat) : List Nat :=
  match p with
  | none => tr
  | some x => x :: tr

/-- Atomic<StrongPtr<T>>::Atomic(T* desired): initializes inner and shades
the desired value only (gc.hpp 445-449). -/
def StrongPtr_init (desired : Option Nat) : StrongState :=
  { inner := desired, shaded := shadePtr desired [] }

/-- Atomic<StrongPtr<T>>::load: pure read, shades nothing (gc.hpp 451-454). -/
def StrongPtr_load (s : StrongState) : Option Nat × StrongState :=
  (s.inner, s)

/-- Atomic<StrongPtr<T>>::store: shade(desired); old = exchange(desired);
shade(old) (gc.hpp 456-461). -/
def StrongPtr_store (s : StrongState) (desired : Option Nat) : StrongState :=
  let tr1 := shadePtr desired s.shaded
  let old := s.inner
  { inner := desired, shaded := shadePtr old tr1 }

/-- Atomic<StrongPtr<T>>::exchange: same writes as store, returning the old
value (gc.hpp 463-469). -/
def StrongPtr_exchange (s : StrongState) (desired : Option Nat) :
    Option Nat × StrongState :=
  (s.inner, StrongPtr_store s desired)

/-- Atomic<StrongPtr<T>>::compare_exchange_strong: on CAS success, shade the
displaced expected value and the desired value; on failure shade nothing and
report the observed value (gc.hpp 471-478).  Returns
(succeeded, observed, new state). -/
def StrongPtr_compare_exchange (s : StrongState)
    (expected desired : Option Nat) : Bool × Option Nat × StrongState :=
  if s.inner = expected then
    (true, expected,
      { inner := desired, shaded := shadePtr desired (shadePtr expected s.shaded) })
  else
    (false, s.inner, s)

/-- C4: store and exchange shade exactly the non-null stored value and the
non-null displaced value (and exchange returns the displaced value); load
shades nothing and changes nothing; the initializing constructor shades only
the stored value; a successful compare-exchange shades both the displaced
expected value and the desired value, while a failed one shades nothing and
leaves the field unchanged. -/
theorem strong_ptr_barrier (s : StrongState) (e d : Option Nat) :
    ((StrongPtr_store s d).inner = d ∧
      ∀ x : Nat, x ∈ (StrongPtr_store s d).shaded ↔
        (x ∈ s.shaded ∨ some x = d ∨ some x = s.inner)) ∧
    (StrongPtr_exchange s d).1 = s.inner ∧
    (StrongPtr_exchange s d).2 = StrongPtr_store s d ∧
    (StrongPtr_load s = (s.inner, s)) ∧
    ((StrongPtr_init d).inner = d ∧
      ∀ x : Nat, x ∈ (StrongPtr_init d).shaded ↔ some x = d) ∧
    (s.inner = e →
      StrongPtr_compare_exchange s e d =
        (true, e, { inner := d, shaded := shadePtr d (shadePtr e s.shaded) })) ∧
    (s.inner ≠ e →
      StrongPtr_compare_exchange s e d = (false, s.inner, s)) := by
  refine ⟨⟨rfl, ?_⟩, rfl, rfl, rfl, ⟨rfl, ?_⟩, ?_, ?_⟩
  · intro x
    cases h : s.inner <;> cases hd : d <;>
      simp [StrongPtr_store, shadePtr, h, hd] <;> tauto
  · intro x
    cases hd : d <;> simp [StrongPtr_init, shadePtr, hd]
  · intro h; simp [StrongPtr_compare_exchange, h]
  · intro h; simp [StrongPtr_compare_exchange, h]

/-- Witness for strong_ptr_barrier at concrete inputs. -/
theorem strong_ptr_barrier_witness :
    StrongPtr_compare_exchange ⟨some 5, []⟩ (some 5) (some 7) =
      (true, some 5, ⟨some 7, [7, 5]⟩) ∧
    (StrongPtr_store ⟨some 5, []⟩ (some 7)).inner = some 7 := by
  have h := strong_ptr_barrier ⟨some 5, []⟩ (some 5) (some 7)
  have h1 := h.2.2.2.2.2.1 rfl
  exact ⟨by simpa [shadePtr] using h1, h.1.1⟩

/-!
## Allocation color (gc.hpp 373-377, gc.cpp 216-222, gc.cpp 138-151)

Object::Object() initializes color from the thread-local local.ALLOC.  The
collector publishes a new ALLOC into the global record and into each
channel; a mutator copies the channel value into its local state only at a
handshake.  We model the three copies of ALLOC and the two transitions.
-/

/-- The three copies of the ALLOC configuration value for one mutator, plus
the collector's local WHITE from which the published value is derived. -/
structure AllocWorld where
  collWHITE : Nat
  globalALLOC : Nat
  channelALLOC : Nat
  localALLOC : Nat

/-- gc::enter (gc.cpp 60-69): the channel and local copies are initialized
from the global record. -/
def AllocWorld.init (w a : Nat) : AllocWorld :=
  { collWHITE := w, globalALLOC := a, channelALLOC := a, localALLOC := a }

/-- A step of the ALLOC-propagation protocol: the collector's phase-A
publication, or the mutator's handshake. -/
inductive AllocStep where
  | publish
  | handshake

/-- Semantics of one step: publish (gc.cpp 216-222 and 253) sets
local.ALLOC = local.BLACK() and writes it to the global record and to the
channel; handshake (gc.cpp 142-143) copies the channel value into the
mutator's local state. -/
def AllocStep.run (s : AllocStep) (w : AllocWorld) : AllocWorld :=
  match s with
  | .publish =>
      let a := w.collWHITE ^^^ 1
      { w with globalALLOC := a, channelALLOC := a }
  | .handshake => { w with localALLOC := w.channelALLOC }

/-- Run a list of steps, first step first. -/
def AllocWorld.run (l : List AllocStep) (w : AllocWorld) : AllocWorld :=
  match l with
  | [] => w
  | s :: rest => AllocWorld.run rest (s.run w)

/-- Object::Object() is color(local.ALLOC) (gc.hpp 373-374): a new object
takes the mutator's local copy of ALLOC, not the global one. -/
def allocationColor (w : AllocWorld) : Nat := w.localALLOC

/-- C6 counterexample: after the collector publishes ALLOC = BLACK = 1 but
before the mutator's next handshake, an allocation takes color 0 while the
global ALLOC field names 1, so a new object does not take the color named by
the global ALLOC field at the moment of allocation. -/
theorem alloc_color_not_global :
    allocationColor (AllocWorld.run [.publish] (AllocWorld.init 0 0)) = 0 ∧
    (AllocWorld.run [.publish] (AllocWorld.init 0 0)).globalALLOC = 1 := by
  decide

/-- C6 amended: a new object takes the mutator's local copy of ALLOC, which
is refreshed from the channel at each handshake; hence an allocation
performed after a publish-then-handshake sequence does take the published
global value. -/
theorem alloc_color_local (w : AllocWorld) :
    allocationColor w = w.localALLOC ∧
    allocationColor (AllocWorld.run [.publish, .handshake] w) =
      (AllocStep.run .publish w).globalALLOC := by
  exact ⟨rfl, rfl⟩

/-!
## Collector handshake loops and abandoned channels (gc.cpp collect())

The collector loop runs three pairs of per-channel loops: the phase-A
request loop (gc.cpp 238-261) and receive loop (278-298), the marking-phase
request loop (406-436) and receive loop (440-465), and the epoch-flip
request loop (535-564) and receive loop (567-597).  We embed one iteration
of each loop body as a function of the collector's local state and the
channel.  For the receive loops, the condition-variable wait has completed,
so the channel satisfies !pending or abandoned.  A result of none for the
channel means the collector deleted (disposed) it.
-/

/-- Handshake channel fields relevant to the collector loops
(gc.hpp 288-299). -/
structure Chan where
  abandoned : Bool
  pending : Bool
  dirty : Bool
  request_infants : Bool
  infants : List Nat

/-- Collector-local state threaded through the loops: the local dirty flag
and the live-object list. -/
structure CollState where
  dirty : Bool
  objects : List Nat

/-- Phase-A request-loop body (gc.cpp 238-261): a live channel gets pending
and request_infants set; an abandoned channel has its infants taken and is
deleted.  Its dirty flag is not consulted. -/
def phaseA_request (st : CollState) (ch : Chan) : CollState × Option Chan :=
  if ch.abandoned then
    ({ st with objects := st.objects ++ ch.infants }, none)
  else
    (st, some { ch with pending := true, request_infants := true })

/-- Phase-A receive-loop body (gc.cpp 278-298): after the wait, the channel's
dirty flag is unconditionally cleared (line 288: channel->dirty = false) and
its infants are taken; an abandoned channel is then deleted. -/
def phaseA_receive (st : CollState) (ch : Chan) : CollState × Option Chan :=
  let st1 := { st with objects := st.objects ++ ch.infants }
  if ch.abandoned then (st1, none)
  else (st1, some { ch with dirty := false, infants := [] })

/-- Marking-phase request-loop body (gc.cpp 406-436): a live channel gets
pending set; an abandoned channel has its dirty flag absorbed into the
collector's local dirty and its infants taken, then is deleted. -/
def phaseB_request (st : CollState) (ch : Chan) : CollState × Option Chan :=
  if ch.abandoned then
    ({ dirty := st.dirty || ch.dirty, objects := st.objects ++ ch.infants }, none)
  else
    (st, some { ch with pending := true })

/-- Marking-phase receive-loop body (gc.cpp 440-465): after the wait, an
abandoned channel's infants are taken; every channel's dirty flag is
absorbed into the collector's local dirty and cleared; abandoned channels
are deleted. -/
def phaseB_receive (st : CollState) (ch : Chan) : CollState × Option Chan :=
  if ch.abandoned then
    ({ dirty := st.dirty || ch.dirty, objects := st.objects ++ ch.infants }, none)
  else
    ({ st with dirty := st.dirty || ch.dirty },
      some { ch with dirty := false })

/-- Epoch-flip request-loop body (gc.cpp 535-564): a live channel gets
pending set and the new WHITE/ALLOC written; an abandoned channel has its
infants taken and is deleted.  Its dirty flag is not consulted. -/
def phaseD_request (st : CollState) (ch : Chan) : CollState × Option Chan :=
  if ch.abandoned then
    ({ st with objects := st.objects ++ ch.infants }, none)
  else
    (st, some { ch with pending := true })

/-- Epoch-flip receive-loop body (gc.cpp 567-597): after the wait, an
abandoned channel's infants are taken; every channel's dirty flag is
absorbed into the collector's local dirty and cleared; abandoned channels
are deleted. -/
def phaseD_receive (st : CollState) (ch : Chan) : CollState × Option Chan :=
  if ch.abandoned then
    ({ dirty := st.dirty || ch.dirty, objects := st.objects ++ ch.infants }, none)
  else
    ({ st with dirty := st.dirty || ch.dirty },
      some { ch with dirty := false })

/-- C8 counterexample: the phase-A request loop disposes an abandoned channel
whose dirty flag is set without taking that flag into the collector's local
dirty, so an abandoned channel's reported dirtiness is silently discarded in
that phase. -/
theorem abandoned_dirty_discarded_phaseA :
    (phaseA_request ⟨false, []⟩ ⟨true, false, true, false, []⟩).1.dirty = false ∧
    (phaseA_request ⟨false, []⟩ ⟨true, false, true, false, []⟩).2 = none :=
  ⟨rfl, rfl⟩

/-- C8 amended: the marking-phase loops and the epoch-flip receive loop do
absorb an abandoned channel's dirty flag into the collector's local dirty
before disposing of it, but the phase-A loops and the epoch-flip request
loop dispose of an abandoned channel without absorbing its dirty flag (the
phase-A receive loop clears it outright). -/
theorem abandoned_dirty_by_phase (st : CollState) (ch : Chan)
    (h : ch.abandoned = true) :
    (phaseB_request st ch).1.dirty = (st.dirty || ch.dirty) ∧
    (phaseB_receive st ch).1.dirty = (st.dirty || ch.dirty) ∧
    (phaseD_receive st ch).1.dirty = (st.dirty || ch.dirty) ∧
    (phaseA_request st ch).1.dirty = st.dirty ∧
    (phaseA_receive st ch).1.dirty = st.dirty ∧
    (phaseD_request st ch).1.dirty = st.dirty ∧
    (phaseB_request st ch).2 = none ∧
    (phaseA_request st ch).2 = none := by
  simp [phaseA_request, phaseA_receive, phaseB_request, phaseB_receive,
    phaseD_request, phaseD_receive, h]

/-- Witness for abandoned_dirty_by_phase at a concrete abandoned dirty
channel. -/
theorem abandoned_dirty_by_phase_witness :
    (phaseB_request ⟨false, []⟩ ⟨true, false, true, false, [4]⟩).1.dirty = true ∧
    (phaseD_request ⟨false, []⟩ ⟨true, false, true, false, [4]⟩).1.dirty = false := by
  have h := abandoned_dirty_by_phase ⟨false, []⟩ ⟨true, false, true, false, [4]⟩ rfl
  exact ⟨h.1, h.2.2.2.2.2.1⟩

/-!
## The open-addressed field table (src/qet/table.cpp, table.hpp, value.hpp)

Keys are SNode pointers (identity equality), modeled as Nat, with the hash
key->_hash given by a function H.  A table entry holds an optional key
(none = NULL) and a Value; a NULL key with a NIL value is an empty slot and
a NULL key with a non-NIL value is a tombstone.  Capacities produced by
GROW_CAPACITY are powers of two, for which the source's index mask
index & (capacity - 1) is reduction modulo the capacity, and for which
capacity * 0.75 is the exact integer capacity * 3 / 4; we use the modulus
and the integer form directly.  The Option layer on results models the
partiality of the embedding: C calls that would dereference a null entries
array, or a probe that exhausts its fuel, have no defined result.
-/

/-- lox::Value (value.hpp): NIL, BOOL, INT64 or OBJECT payload. -/
inductive Value where
  | nil
  | bool (b : Bool)
  | int64 (n : Int)
  | obj (p : Nat)
deriving DecidableEq

/-- Value::is_nil (value.hpp). -/
def Value.is_nil : Value → Bool
  | .nil => true
  | _ => false

/-- lox::Entry (table.hpp 41-47): key pointer (none = NULL) and value. -/
structure Entry where
  key : Option Nat
  value : Value
deriving DecidableEq

/-- A slot with NULL key and NIL value is empty (neither a live entry nor a
tombstone). -/
def Entry.isEmptySlot (e : Entry) : Bool := e.key.isNone && e.value.is_nil

/-- lox::Table (table.hpp 51-57): count plus the entries array (none models
a NULL entries pointer). -/
structure Table where
  count : Nat
  entries : Option (List Entry)
deriving DecidableEq

/-- GROW_CAPACITY(capacity): capacity < 8 ? 8 : capacity * 2
(table.cpp 19-20). -/
def GROW_CAPACITY (c : Nat) : Nat := if c < 8 then 8 else c * 2

section TableModel

variable (H : Nat → Nat)

/-- Probe loop of findEntry (table.cpp 58-72): walk the probe chain from
idx, remembering the first tombstone; stop at an empty slot (returning the
remembered tombstone if any) or at the key.  fuel bounds the walk; the
callers pass the capacity. -/
def findEntryGo (arr : List Entry) (key : Nat) :
    Nat → Nat → Option Nat → Option Nat
  | 0, _, _ => none
  | fuel + 1, idx, tomb =>
    let e := arr.getD idx ⟨none, Value.nil⟩
    match e.key with
    | none =>
      if e.value.is_nil then
        some (tomb.getD idx)
      else
        findEntryGo arr key fuel ((idx + 1) % arr.length) (some (tomb.getD idx))
    | some k2 =>
      if k2 = key then some idx
      else findEntryGo arr key fuel ((idx + 1) % arr.length) tomb

/-- findEntry (table.cpp 53-73): probe from key->_hash masked by the
capacity. -/
def findEntry (arr : List Entry) (key : Nat) : Option Nat :=
  findEntryGo arr key arr.length (H key % arr.length) none

/-- tableGet (table.cpp 75-84).  some none models returning false with the
out-parameter untouched; some (some v) models returning true after writing
v through the out-parameter. -/
def tableGet (t : Table) (key : Nat) : Option (Option Value) :=
  if t.count = 0 then some none
  else
    match t.entries with
    | none => none
    | some arr =>
      match findEntry H arr key with
      | none => none
      | some i =>
        let e := arr.getD i ⟨none, Value.nil⟩
        match e.key with
        | none => some none
        | some _ => some (some e.value)

/-- tableDelete (table.cpp 86-98): on a hit, write a tombstone (NULL key,
boolean true value) and leave count unchanged. -/
def tableDelete (t : Table) (key : Nat) : Option (Bool × Table) :=
  if t.count = 0 then some (false, t)
  else
    match t.entries with
    | none => none
    | some arr =>
      match findEntry H arr key with
      | none => none
      | some i =>
        let e := arr.getD i ⟨none, Value.nil⟩
        match e.key with
        | none => some (false, t)
        | some _ =>
          some (true,
            { t with entries := some (arr.set i ⟨none, Value.bool true⟩) })

/-- Rehash loop of adjustCapacity (table.cpp 108-119): copy each keyed
entry of the old array into its findEntry slot of the new array, counting
the copied keys. -/
def adjustLoop (old arr : List Entry) (c : Nat) : Option (List Entry × Nat) :=
  match old with
  | [] => some (arr, c)
  | e :: rest =>
    match e.key with
    | none => adjustLoop rest arr c
    | some k =>
      match findEntry H arr k with
      | none => none
      | some i => adjustLoop rest (arr.set i e) (c + 1)

/-- adjustCapacity (table.cpp 100-125): allocate a zeroed array of the new
capacity, rehash the old entries into it, and set count to the number of
keys. -/
def adjustCapacity (t : Table) (cap : Nat) : Option Table :=
  let newArr := List.replicate cap (⟨none, Value.nil⟩ : Entry)
  match t.entries with
  | none => some { count := 0, entries := some newArr }
  | some old =>
    match adjustLoop H old newArr 0 with
    | none => none
    | some (arr, c) => some { count := c, entries := some arr }

/-- Second half of tableSet (table.cpp 135-141), after the capacity check:
write (key, v) at the findEntry slot, incrementing count only when that slot
was a fresh empty slot, and return whether the key was new. -/
def tableSetGrown (t1 : Table) (key : Nat) (v : Value) : Option (Bool × Table) :=
  match t1.entries with
  | none => none
  | some arr =>
    match findEntry H arr key with
    | none => none
    | some i =>
      let e := arr.getD i ⟨none, Value.nil⟩
      let isNewKey := e.key.isNone
      let c1 := if isNewKey && e.value.is_nil then t1.count + 1 else t1.count
      some (isNewKey, { count := c1, entries := some (arr.set i ⟨some key, v⟩) })

/-- tableSet (table.cpp 127-142): grow when the entries array is NULL or
count + 1 would exceed three quarters of the capacity, then do the write. -/
def tableSet (t : Table) (key : Nat) (v : Value) : Option (Bool × Table) :=
  let grown : Option Table :=
    match t.entries with
    | none => adjustCapacity H t (GROW_CAPACITY 0)
    | some arr =>
      if t.count + 1 > arr.length * 3 / 4 then
        adjustCapacity H t (GROW_CAPACITY arr.length)
      else some t
  match grown with
  | none => none
  | some t1 => tableSetGrown H t1 key v

end TableModel

/-- Slot i of an entries array; out-of-range reads give the empty slot.  The
source indexes entries[index] with index always reduced modulo the
capacity. -/
def slot (arr : List Entry) (i : Nat) : Entry := arr.getD i ⟨none, Value.nil⟩

/-- Number of non-empty slots (live keys plus tombstones). -/
def nonemptyCount (arr : List Entry) : Nat :=
  arr.countP (fun e => !e.isEmptySlot)

/-- Number of keyed (live) slots. -/
def keyedCount (arr : List Entry) : Nat :=
  arr.countP (fun e => e.key.isSome)

/-- No key occupies two distinct slots. -/
def uniqKeys (arr : List Entry) : Prop :=
  ∀ k i j, i < arr.length → j < arr.length →
    (slot arr i).key = some k → (slot arr j).key = some k → i = j

/-- Well-formedness of a table as maintained by the source: a NULL entries
array only with count 0; otherwise a nonempty array whose non-empty-slot
count is bounded by count, whose count is below the capacity (so an empty
slot always exists and probes terminate), and whose keys are unique. -/
def TableWF (t : Table) : Prop :=
  (t.entries = none → t.count = 0) ∧
  (∀ arr, t.entries = some arr →
    0 < arr.length ∧ nonemptyCount arr ≤ t.count ∧
      t.count < arr.length ∧ uniqKeys arr)

/-- Key k does not occur in the table. -/
def keyNotPresent (t : Table) (k : Nat) : Prop :=
  ∀ arr, t.entries = some arr → ∀ j, j < arr.length → (slot arr j).key ≠ some k

theorem slot_set_self (arr : List Entry) (i : Nat) (e : Entry)
    (h : i < arr.length) : slot (arr.set i e) i = e := by
  induction arr generalizing i with
  | nil => simp at h
  | cons a l ih =>
    cases i with
    | zero => rfl
    | succ n =>
      simp only [List.length_cons, Nat.succ_lt_succ_iff] at h
      simpa [slot, List.set] using ih n h

theorem slot_set_other (arr : List Entry) (i j : Nat) (e : Entry)
    (h : i ≠ j) : slot (arr.set i e) j = slot arr j := by
  induction arr generalizing i j with
  | nil => rfl
  | cons a l ih =>
    cases i with
    | zero =>
      cases j with
      | zero => exact absurd rfl h
      | succ m => rfl
    | succ n =>
      cases j with
      | zero => rfl
      | succ m =>
        have : n ≠ m := fun hc => h (by rw [hc])
        simpa [slot, List.set] using ih n m this

theorem countP_set_le (p : Entry → Bool) (arr : List Entry) (i : Nat)
    (e : Entry) : (arr.set i e).countP p ≤ arr.countP p + 1 := by
  induction arr generalizing i with
  | nil => simp
  | cons a l ih =>
    cases i with
    | zero =>
      simp only [List.set, List.countP_cons]
      by_cases hp : p e = true <;> by_cases hq : p a = true <;>
        simp [hp, hq] <;> omega
    | succ n =>
      simp only [List.set, List.countP_cons]
      have := ih n
      omega

theorem exists_empty_of_count (arr : List Entry)
    (h : nonemptyCount arr < arr.length) :
    ∃ i, i < arr.length ∧ (slot arr i).isEmptySlot = true := by
  induction arr with
  | nil => simp at h
  | cons a l ih =>
    by_cases ha : a.isEmptySlot = true
    · exact ⟨0, by simp, by simpa [slot] using ha⟩
    · have ha2 : (!a.isEmptySlot) = true := by simp [ha]
      have hcount : nonemptyCount (a :: l) = nonemptyCount l + 1 := by
        simp [nonemptyCount, List.countP_cons, ha2]
      rw [hcount] at h
      simp only [List.length_cons] at h
      obtain ⟨i, hi, hempty⟩ := ih (by omega)
      exact ⟨i + 1, by simpa using Nat.succ_lt_succ hi, by simpa [slot] using hempty⟩

theorem shift_mod (len idx e : Nat) (hi : idx < len) (he : e < len) :
    ∃ t, t < len ∧ (idx + t) % len = e := by
  rcases le_or_lt idx e with hle | hlt
  · exact ⟨e - idx, by omega, by rw [Nat.add_sub_cancel' hle]; exact Nat.mod_eq_of_lt he⟩
  · refine ⟨e + len - idx, by omega, ?_⟩
    have : idx + (e + len - idx) = e + len := by omega
    rw [this, Nat.add_mod_right]
    exact Nat.mod_eq_of_lt he

theorem findEntryGo_succ (arr : List Entry) (key fuel idx : Nat)
    (tomb : Option Nat) :
    findEntryGo arr key (fuel + 1) idx tomb =
      match (slot arr idx).key with
      | none =>
        if (slot arr idx).value.is_nil then some (tomb.getD idx)
        else findEntryGo arr key fuel ((idx + 1) % arr.length)
              (some (tomb.getD idx))
      | some k2 =>
        if k2 = key then some idx
        else findEntryGo arr key fuel ((idx + 1) % arr.length) tomb := rfl

theorem go_step_empty (arr : List Entry) (key fuel idx : Nat)
    (tomb : Option Nat) (hk : (slot arr idx).key = none)
    (hnil : (slot arr idx).value.is_nil = true) :
    findEntryGo arr key (fuel + 1) idx tomb = some (tomb.getD idx) := by
  rw [findEntryGo_succ, hk]
  simp [hnil]

theorem go_step_tombstone (arr : List Entry) (key fuel idx : Nat)
    (tomb : Option Nat) (hk : (slot arr idx).key = none)
    (hnil : (slot arr idx).value.is_nil = false) :
    findEntryGo arr key (fuel + 1) idx tomb =
      findEntryGo arr key fuel ((idx + 1) % arr.length)
        (some (tomb.getD idx)) := by
  rw [findEntryGo_succ, hk]
  simp [hnil]

theorem go_step_found (arr : List Entry) (key fuel idx : Nat)
    (tomb : Option Nat) (hk : (slot arr idx).key = some key) :
    findEntryGo arr key (fuel + 1) idx tomb = some idx := by
  rw [findEntryGo_succ, hk]
  simp

theorem go_step_miss (arr : List Entry) (key fuel idx k2 : Nat)
    (tomb : Option Nat) (hk : (slot arr idx).key = some k2)
    (hne : k2 ≠ key) :
    findEntryGo arr key (fuel + 1) idx tomb =
      findEntryGo arr key fuel ((idx + 1) % arr.length) tomb := by
  rw [findEntryGo_succ, hk]
  simp [hne]

/-- The probe only ever answers with a slot that is unkeyed or holds the
searched key (findEntry returns at an empty slot, a remembered tombstone, or
the key). -/
theorem findEntryGo_shape (arr : List Entry) (key : Nat) :
    ∀ fuel idx tomb r, (∀ x, tomb = some x → (slot arr x).key = none) →
      findEntryGo arr key fuel idx tomb = some r →
      (slot arr r).key = none ∨ (slot arr r).key = some key := by
  intro fuel
  induction fuel with
  | zero => intro idx tomb r _ h; simp [findEntryGo] at h
  | succ n ih =>
    intro idx tomb r htomb h
    cases hk : (slot arr idx).key with
    | none =>
      cases hnil : (slot arr idx).value.is_nil with
      | true =>
        rw [go_step_empty arr key n idx tomb hk hnil] at h
        cases tomb with
        | none =>
          obtain rfl : idx = r := Option.some.inj h
          exact Or.inl hk
        | some x =>
          have hx : x = r := by simpa using h
          rw [← hx]
          exact Or.inl (htomb x rfl)
      | false =>
        rw [go_step_tombstone arr key n idx tomb hk hnil] at h
        refine ih _ _ _ ?_ h
        intro x hx
        obtain rfl : tomb.getD idx = x := Option.some.inj hx
        cases tomb with
        | none => simpa using hk
        | some y => simpa using htomb y rfl
    | some k2 =>
      by_cases heq : k2 = key
      · have hkk : (slot arr idx).key = some key := by rw [hk, heq]
        rw [go_step_found arr key n idx tomb hkk] at h
        obtain rfl : idx = r := Option.some.inj h
        exact Or.inr hkk
      · rw [go_step_miss arr key n idx k2 tomb hk heq] at h
        exact ih _ _ _ htomb h

/-- The probe answers with an index below the capacity. -/
theorem findEntryGo_lt (arr : List Entry) (key : Nat) :
    ∀ fuel idx tomb r, idx < arr.length →
      (∀ x, tomb = some x → x < arr.length) →
      findEntryGo arr key fuel idx tomb = some r → r < arr.length := by
  intro fuel
  induction fuel with
  | zero => intro idx tomb r _ _ h; simp [findEntryGo] at h
  | succ n ih =>
    intro idx tomb r hidx htomb h
    have hpos : 0 < arr.length := lt_of_le_of_lt (Nat.zero_le idx) hidx
    have hnext : (idx + 1) % arr.length < arr.length := Nat.mod_lt _ hpos
    cases hk : (slot arr idx).key with
    | none =>
      cases hnil : (slot arr idx).value.is_nil with
      | true =>
        rw [go_step_empty arr key n idx tomb hk hnil] at h
        cases tomb with
        | none =>
          obtain rfl : idx = r := Option.some.inj h
          exact hidx
        | some x =>
          have hx : x = r := by simpa using h
          rw [← hx]
          exact htomb x rfl
      | false =>
        rw [go_step_tombstone arr key n idx tomb hk hnil] at h
        refine ih _ _ _ hnext ?_ h
        intro x hx
        obtain rfl : tomb.getD idx = x := Option.some.inj hx
        cases tomb with
        | none => simpa using hidx
        | some y => simpa using htomb y rfl
    | some k2 =>
      by_cases heq : k2 = key
      · have hkk : (slot arr idx).key = some key := by rw [hk, heq]
        rw [go_step_found arr key n idx tomb hkk] at h
        obtain rfl : idx = r := Option.some.inj h
        exact hidx
      · rw [go_step_miss arr key n idx k2 tomb hk heq] at h
        exact ih _ _ _ hnext htomb h

/-- The probe terminates: if an empty slot lies within fuel steps of the
start, findEntryGo answers. -/
theorem findEntryGo_total (arr : List Entry) (key : Nat) :
    ∀ fuel idx tomb, idx < arr.length →
      (∃ t, t < fuel ∧ (slot arr ((idx + t) % arr.length)).isEmptySlot = true) →
      (findEntryGo arr key fuel idx tomb).isSome = true := by
  intro fuel
  induction fuel with
  | zero =>
    intro idx tomb _ hex
    obtain ⟨t, ht, _⟩ := hex
    omega
  | succ n ih =>
    intro idx tomb hidx hex
    obtain ⟨t, ht, hempty⟩ := hex
    have hpos : 0 < arr.length := lt_of_le_of_lt (Nat.zero_le idx) hidx
    have hnext : (idx + 1) % arr.length < arr.length := Nat.mod_lt _ hpos
    have harith : ((idx + 1) % arr.length + (t - 1)) % arr.length
        = (idx + t) % arr.length → True := fun _ => trivial
    cases hk : (slot arr idx).key with
    | none =>
      cases hnil : (slot arr idx).value.is_nil with
      | true =>
        rw [go_step_empty arr key n idx tomb hk hnil]
        rfl
      | false =>
        have htpos : 0 < t := by
          rcases Nat.eq_zero_or_pos t with rfl | h1
          · exfalso
            rw [Nat.add_zero, Nat.mod_eq_of_lt hidx] at hempty
            simp [Entry.isEmptySlot, hk, hnil] at hempty
          · exact h1
        rw [go_step_tombstone arr key n idx tomb hk hnil]
        refine ih _ _ hnext ⟨t - 1, by omega, ?_⟩
        have heq2 : ((idx + 1) % arr.length + (t - 1)) % arr.length
            = (idx + t) % arr.length := by
          rw [Nat.mod_add_mod]
          congr 1
          omega
        rw [heq2]
        exact hempty
    | some k2 =>
      by_cases heq : k2 = key
      · have hkk : (slot arr idx).key = some key := by rw [hk, heq]
        rw [go_step_found arr key n idx tomb hkk]
        rfl
      · have htpos : 0 < t := by
          rcases Nat.eq_zero_or_pos t with rfl | h1
          · exfalso
            rw [Nat.add_zero, Nat.mod_eq_of_lt hidx] at hempty
            simp [Entry.isEmptySlot, hk] at hempty
          · exact h1
        rw [go_step_miss arr key n idx k2 tomb hk heq]
        refine ih _ _ hnext ⟨t - 1, by omega, ?_⟩
        have heq2 : ((idx + 1) % arr.length + (t - 1)) % arr.length
            = (idx + t) % arr.length := by
          rw [Nat.mod_add_mod]
          congr 1
          omega
        rw [heq2]
        exact hempty

/-- Writing the searched key into the answered slot does not change the
probe's answer: the rewritten probe stops at that very slot. -/
theorem findEntryGo_write (arr : List Entry) (key : Nat) (ep : Entry) (r : Nat)
    (he : ep.key = some key) (hr : r < arr.length) :
    ∀ fuel idx tomb, tomb ≠ some r →
      findEntryGo arr key fuel idx tomb = some r →
      findEntryGo (arr.set r ep) key fuel idx tomb = some r := by
  intro fuel
  induction fuel with
  | zero => intro idx tomb _ h; simp [findEntryGo] at h
  | succ n ih =>
    intro idx tomb htomb h
    by_cases hir : idx = r
    · subst hir
      have hks : (slot (arr.set idx ep) idx).key = some key := by
        rw [slot_set_self arr idx ep hr, he]
      rw [go_step_found (arr.set idx ep) key n idx tomb hks]
    · have hslot : slot (arr.set r ep) idx = slot arr idx :=
        slot_set_other arr r idx ep (fun hc => hir hc.symm)
      have hlen : (arr.set r ep).length = arr.length := List.length_set arr r ep
      cases hk : (slot arr idx).key with
      | none =>
        cases hnil : (slot arr idx).value.is_nil with
        | true =>
          exfalso
          rw [go_step_empty arr key n idx tomb hk hnil] at h
          cases tomb with
          | none => exact hir (Option.some.inj h)
          | some x =>
            have hx : x = r := by simpa using h
            exact htomb (by rw [hx])
        | false =>
          rw [go_step_tombstone arr key n idx tomb hk hnil] at h
          have htomb2 : some (tomb.getD idx) ≠ some r := by
            cases tomb with
            | none =>
              simpa using fun hc => hir hc
            | some x =>
              simpa using fun hc => htomb (by rw [hc])
          have hrec := ih _ _ htomb2 h
          rw [go_step_tombstone (arr.set r ep) key n idx tomb
            (by rw [hslot]; exact hk) (by rw [hslot]; exact hnil)]
          rw [hlen]
          exact hrec
      | some k2 =>
        by_cases heq : k2 = key
        · exfalso
          have hkk : (slot arr idx).key = some key := by rw [hk, heq]
          rw [go_step_found arr key n idx tomb hkk] at h
          exact hir (Option.some.inj h)
        · rw [go_step_miss arr key n idx k2 tomb hk heq] at h
          have hrec := ih _ _ htomb h
          rw [go_step_miss (arr.set r ep) key n idx k2 tomb
            (by rw [hslot]; exact hk) heq]
          rw [hlen]
          exact hrec

theorem findEntry_isSome (H : Nat → Nat) (arr : List Entry) (key : Nat)
    (hlen : 0 < arr.length)
    (hemp : ∃ i, i < arr.length ∧ (slot arr i).isEmptySlot = true) :
    (findEntry H arr key).isSome = true := by
  obtain ⟨e, he, hee⟩ := hemp
  have hidx : H key % arr.length < arr.length := Nat.mod_lt _ hlen
  obtain ⟨t, ht, htt⟩ := shift_mod arr.length (H key % arr.length) e hidx he
  exact findEntryGo_total arr key arr.length _ none hidx
    ⟨t, ht, by rw [htt]; exact hee⟩

theorem findEntry_shape (H : Nat → Nat) (arr : List Entry) (key r : Nat)
    (h : findEntry H arr key = some r) :
    (slot arr r).key = none ∨ (slot arr r).key = some key :=
  findEntryGo_shape arr key arr.length _ none r (by intro x hx; cases hx) h

theorem findEntry_lt (H : Nat → Nat) (arr : List Entry) (key r : Nat)
    (hlen : 0 < arr.length) (h : findEntry H arr key = some r) :
    r < arr.length :=
  findEntryGo_lt arr key arr.length _ none r (Nat.mod_lt _ hlen)
    (by intro x hx; cases hx) h

theorem findEntry_write (H : Nat → Nat) (arr : List Entry) (key r : Nat)
    (ep : Entry) (he : ep.key = some key) (hr : r < arr.length)
    (h : findEntry H arr key = some r) :
    findEntry H (arr.set r ep) key = some r := by
  unfold findEntry at h ⊢
  rw [List.length_set]
  exact findEntryGo_write arr key ep r he hr arr.length _ none
    (by intro hc; cases hc) h

theorem nonemptyCount_replicate (n : Nat) :
    nonemptyCount (List.replicate n (⟨none, Value.nil⟩ : Entry)) = 0 := by
  induction n with
  | zero => rfl
  | succ m ih =>
    simp only [List.replicate, nonemptyCount, List.countP_cons] at ih ⊢
    simp [Entry.isEmptySlot, Value.is_nil, ih]

theorem keyedCount_le_nonempty (arr : List Entry) :
    keyedCount arr ≤ nonemptyCount arr := by
  unfold keyedCount nonemptyCount
  apply List.countP_mono_left
  intro e _ h
  cases hk : e.key with
  | none => rw [hk] at h; simp at h
  | some k => simp [Entry.isEmptySlot, hk]

theorem GROW_CAPACITY_gt (c : Nat) : c < GROW_CAPACITY c := by
  unfold GROW_CAPACITY
  split <;> omega

theorem adjustLoop_cons_none (H : Nat → Nat) (e : Entry) (rest arr : List Entry)
    (c : Nat) (hk : e.key = none) :
    adjustLoop H (e :: rest) arr c = adjustLoop H rest arr c := by
  simp only [adjustLoop, hk]

theorem adjustLoop_cons_some (H : Nat → Nat) (e : Entry) (rest arr : List Entry)
    (c k : Nat) (hk : e.key = some k) :
    adjustLoop H (e :: rest) arr c =
      match findEntry H arr k with
      | none => none
      | some i => adjustLoop H rest (arr.set i e) (c + 1) := by
  simp only [adjustLoop, hk]

theorem adjustLoop_spec (H : Nat → Nat) (cap : Nat) :
    ∀ (old : List Entry) (arr : List Entry) (c : Nat), arr.length = cap →
      nonemptyCount arr ≤ c → c + keyedCount old ≤ cap →
      ∃ arrF cF, adjustLoop H old arr c = some (arrF, cF) ∧
        arrF.length = cap ∧ nonemptyCount arrF ≤ cF ∧
        cF = c + keyedCount old := by
  intro old
  induction old with
  | nil =>
    intro arr c h1 h2 _
    exact ⟨arr, c, rfl, h1, h2, by simp [keyedCount]⟩
  | cons e rest ih =>
    intro arr c h1 h2 h3
    cases hk : e.key with
    | none =>
      have hkc : keyedCount (e :: rest) = keyedCount rest := by
        simp [keyedCount, List.countP_cons, hk]
      rw [adjustLoop_cons_none H e rest arr c hk]
      rw [hkc] at h3
      obtain ⟨arrF, cF, hl, hlen, hne, hcf⟩ := ih arr c h1 h2 h3
      exact ⟨arrF, cF, hl, hlen, hne, by rw [hcf, hkc]⟩
    | some k =>
      have hkc : keyedCount (e :: rest) = keyedCount rest + 1 := by
        simp [keyedCount, List.countP_cons, hk]
      rw [hkc] at h3
      have hcap : 0 < cap := by omega
      have hlenpos : 0 < arr.length := by rw [h1]; exact hcap
      have hlt : nonemptyCount arr < arr.length := by
        rw [h1]; omega
      have hfs := findEntry_isSome H arr k hlenpos (exists_empty_of_count arr hlt)
      obtain ⟨i, hfind⟩ := Option.isSome_iff_exists.mp hfs
      rw [adjustLoop_cons_some H e rest arr c k hk, hfind]
      have hset1 : (arr.set i e).length = cap := by
        rw [List.length_set]; exact h1
      have hset2 : nonemptyCount (arr.set i e) ≤ c + 1 := by
        have hb : nonemptyCount (arr.set i e) ≤ nonemptyCount arr + 1 :=
          countP_set_le _ arr i e
        omega
      obtain ⟨arrF, cF, hl, hlen, hne, hcf⟩ :=
        ih (arr.set i e) (c + 1) hset1 hset2 (by omega)
      exact ⟨arrF, cF, hl, hlen, hne, by rw [hcf, hkc]; omega⟩

theorem adjustCapacity_none (H : Nat → Nat) (t : Table) (cap : Nat)
    (h : t.entries = none) :
    adjustCapacity H t cap =
      some { count := 0,
             entries := some (List.replicate cap (⟨none, Value.nil⟩ : Entry)) } := by
  simp only [adjustCapacity, h]

theorem adjustCapacity_some (H : Nat → Nat) (t : Table) (cap : Nat)
    (old : List Entry) (h : t.entries = some old) :
    adjustCapacity H t cap =
      match adjustLoop H old (List.replicate cap (⟨none, Value.nil⟩ : Entry)) 0 with
      | none => none
      | some (arr, c) => some { count := c, entries := some arr } := by
  simp only [adjustCapacity, h]

/-- adjustCapacity succeeds on a table whose keyed entries fit strictly
below the new capacity, and yields a table at the new capacity whose
non-empty count is bounded by its count, itself below the capacity. -/
theorem adjustCapacity_spec (H : Nat → Nat) (t : Table) (cap : Nat)
    (hcap : 0 < cap)
    (hold : ∀ old, t.entries = some old → keyedCount old < cap) :
    ∃ t1 arr1, adjustCapacity H t cap = some t1 ∧ t1.entries = some arr1 ∧
      arr1.length = cap ∧ nonemptyCount arr1 ≤ t1.count ∧ t1.count < cap := by
  cases he : t.entries with
  | none =>
    rw [adjustCapacity_none H t cap he]
    exact ⟨_, _, rfl, rfl, by simp, by simp [nonemptyCount_replicate], hcap⟩
  | some old =>
    have hlt := hold old he
    obtain ⟨arrF, cF, hl, hlen, hne, hcf⟩ :=
      adjustLoop_spec H cap old
        (List.replicate cap (⟨none, Value.nil⟩ : Entry)) 0
        (by simp) (by simp [nonemptyCount_replicate]) (by omega)
    rw [adjustCapacity_some H t cap old he, hl]
    exact ⟨_, arrF, rfl, rfl, hlen, hne, by show cF < cap; omega⟩

theorem slot_mem (arr : List Entry) (r : Nat) (hr : r < arr.length) :
    slot arr r ∈ arr := by
  induction arr generalizing r with
  | nil => simp at hr
  | cons a l ih =>
    cases r with
    | zero => exact List.mem_cons_self a l
    | succ n =>
      simp only [List.length_cons, Nat.succ_lt_succ_iff] at hr
      exact List.mem_cons_of_mem a (ih n hr)

theorem nonempty_pos (arr : List Entry) (r : Nat) (hr : r < arr.length)
    (h : (slot arr r).isEmptySlot = false) : 0 < nonemptyCount arr := by
  have hmem := slot_mem arr r hr
  unfold nonemptyCount
  rw [List.countP_pos_iff]
  exact ⟨slot arr r, hmem, by simp [h]⟩

theorem tableGet_zero (H : Nat → Nat) (t : Table) (key : Nat)
    (hc : t.count = 0) : tableGet H t key = some none := by
  simp only [tableGet, if_pos hc]

theorem tableDelete_zero (H : Nat → Nat) (t : Table) (key : Nat)
    (hc : t.count = 0) : tableDelete H t key = some (false, t) := by
  simp only [tableDelete, if_pos hc]

theorem tableGet_unkeyed (H : Nat → Nat) (t : Table) (arr : List Entry)
    (key i : Nat) (hc : ¬t.count = 0) (he : t.entries = some arr)
    (hf : findEntry H arr key = some i) (hk : (slot arr i).key = none) :
    tableGet H t key = some none := by
  simp only [tableGet, if_neg hc, he, hf]
  rw [show arr.getD i ⟨none, Value.nil⟩ = slot arr i from rfl, hk]

theorem tableGet_found (H : Nat → Nat) (t : Table) (arr : List Entry)
    (key i k2 : Nat) (hc : ¬t.count = 0) (he : t.entries = some arr)
    (hf : findEntry H arr key = some i) (hk : (slot arr i).key = some k2) :
    tableGet H t key = some (some (slot arr i).value) := by
  simp only [tableGet, if_neg hc, he, hf]
  rw [show arr.getD i ⟨none, Value.nil⟩ = slot arr i from rfl, hk]

theorem tableDelete_unkeyed (H : Nat → Nat) (t : Table) (arr : List Entry)
    (key i : Nat) (hc : ¬t.count = 0) (he : t.entries = some arr)
    (hf : findEntry H arr key = some i) (hk : (slot arr i).key = none) :
    tableDelete H t key = some (false, t) := by
  simp only [tableDelete, if_neg hc, he, hf]
  rw [show arr.getD i ⟨none, Value.nil⟩ = slot arr i from rfl, hk]

theorem tableDelete_found (H : Nat → Nat) (t : Table) (arr : List Entry)
    (key i k2 : Nat) (hc : ¬t.count = 0) (he : t.entries = some arr)
    (hf : findEntry H arr key = some i) (hk : (slot arr i).key = some k2) :
    tableDelete H t key =
      some (true,
        { t with entries := some (arr.set i ⟨none, Value.bool true⟩) }) := by
  simp only [tableDelete, if_neg hc, he, hf]
  rw [show arr.getD i ⟨none, Value.nil⟩ = slot arr i from rfl, hk]

theorem tableSetGrown_eq (H : Nat → Nat) (t1 : Table) (arr : List Entry)
    (key i : Nat) (v : Value) (he : t1.entries = some arr)
    (hf : findEntry H arr key = some i) :
    tableSetGrown H t1 key v =
      some ((slot arr i).key.isNone,
        { count :=
            if (slot arr i).key.isNone && (slot arr i).value.is_nil then
              t1.count + 1
            else t1.count,
          entries := some (arr.set i ⟨some key, v⟩) }) := by
  simp only [tableSetGrown, he, hf]
  rfl

theorem tableGet_found_mk (H : Nat → Nat) (c : Nat) (arr : List Entry)
    (key i k2 : Nat) (hc : ¬c = 0)
    (hf : findEntry H arr key = some i) (hk : (slot arr i).key = some k2) :
    tableGet H ⟨c, some arr⟩ key = some (some (slot arr i).value) :=
  tableGet_found H ⟨c, some arr⟩ arr key i k2 hc rfl hf hk

/-- Write-then-read on a table that has already passed the capacity check:
the written value is read back. -/
theorem set_get_core (H : Nat → Nat) (t1 : Table) (arr1 : List Entry)
    (k : Nat) (v : Value) (ht1e : t1.entries = some arr1)
    (hlen : 0 < arr1.length) (hne : nonemptyCount arr1 ≤ t1.count)
    (hlt : t1.count < arr1.length) :
    ∃ b t2, tableSetGrown H t1 k v = some (b, t2) ∧
      tableGet H t2 k = some (some v) := by
  have hemp := exists_empty_of_count arr1 (by omega)
  have hfs := findEntry_isSome H arr1 k hlen hemp
  obtain ⟨r, hfind⟩ := Option.isSome_iff_exists.mp hfs
  have hr : r < arr1.length := findEntry_lt H arr1 k r hlen hfind
  have hgeq := tableSetGrown_eq H t1 arr1 k r v ht1e hfind
  refine ⟨_, _, hgeq, ?_⟩
  have hfind2 : findEntry H (arr1.set r ⟨some k, v⟩) k = some r :=
    findEntry_write H arr1 k r ⟨some k, v⟩ rfl hr hfind
  have hslot : slot (arr1.set r ⟨some k, v⟩) r = ⟨some k, v⟩ :=
    slot_set_self arr1 r _ hr
  have hcount : ¬(if (slot arr1 r).key.isNone && (slot arr1 r).value.is_nil
      then t1.count + 1 else t1.count) = 0 := by
    by_cases hes : ((slot arr1 r).key.isNone && (slot arr1 r).value.is_nil)
        = true
    · rw [if_pos hes]
      omega
    · rw [if_neg hes]
      have hpos : 0 < nonemptyCount arr1 :=
        nonempty_pos arr1 r hr (by simp [Entry.isEmptySlot, hes])
      omega
  have hval : (slot (arr1.set r ⟨some k, v⟩) r).value = v := by rw [hslot]
  have hkk : (slot (arr1.set r ⟨some k, v⟩) r).key = some k := by rw [hslot]
  have hget := tableGet_found_mk H
    (if ((slot arr1 r).key.isNone && (slot arr1 r).value.is_nil) = true then
      t1.count + 1 else t1.count)
    (arr1.set r ⟨some k, v⟩) k r k hcount hfind2 hkk
  rw [hget, hval]

/-- C7: in a single mutator, tableSet(t,k,v) followed by tableGet(t,k)
returns true with the value v, and tableDelete(t,k) followed by
tableGet(t,k) reports the key as not present (the deletion leaves a
tombstone, which keeps other probe chains intact), on any well-formed
table. -/
theorem table_set_get_delete (H : Nat → Nat) (t : Table) (k : Nat)
    (v : Value) (hwf : TableWF t) :
    (∃ b t1, tableSet H t k v = some (b, t1) ∧
      tableGet H t1 k = some (some v)) ∧
    (∃ b t2, tableDelete H t k = some (b, t2) ∧
      tableGet H t2 k = some none) := by
  constructor
  · -- set then get
    cases he : t.entries with
    | none =>
      have hc0 : t.count = 0 := hwf.1 he
      obtain ⟨t1, arr1, hadj, ht1e, hlen1, hne1, hc1⟩ :=
        adjustCapacity_spec H t (GROW_CAPACITY 0) (by decide)
          (fun old hsome => by rw [he] at hsome; cases hsome)
      have hset : tableSet H t k v = tableSetGrown H t1 k v := by
        simp only [tableSet, he, hadj]
      obtain ⟨b, t2, hg, hget⟩ := set_get_core H t1 arr1 k v ht1e
        (by omega) hne1 (by omega)
      exact ⟨b, t2, by rw [hset]; exact hg, hget⟩
    | some arr =>
      obtain ⟨hlen, hne, hlt, huniq⟩ := hwf.2 arr he
      by_cases hgrow : t.count + 1 > arr.length * 3 / 4
      · have hcap : arr.length < GROW_CAPACITY arr.length :=
          GROW_CAPACITY_gt arr.length
        obtain ⟨t1, arr1, hadj, ht1e, hlen1, hne1, hc1⟩ :=
          adjustCapacity_spec H t (GROW_CAPACITY arr.length) (by omega)
            (fun old hsome => by
              rw [he] at hsome
              obtain rfl : arr = old := Option.some.inj hsome
              have := keyedCount_le_nonempty arr
              omega)
        have hset : tableSet H t k v = tableSetGrown H t1 k v := by
          simp only [tableSet, he, if_pos hgrow, hadj]
        obtain ⟨b, t2, hg, hget⟩ := set_get_core H t1 arr1 k v ht1e
          (by omega) hne1 (by omega)
        exact ⟨b, t2, by rw [hset]; exact hg, hget⟩
      · have hset : tableSet H t k v = tableSetGrown H t k v := by
          simp only [tableSet, he, if_neg hgrow]
        obtain ⟨b, t2, hg, hget⟩ := set_get_core H t arr k v he hlen hne hlt
        exact ⟨b, t2, by rw [hset]; exact hg, hget⟩
  · -- delete then get
    by_cases hc0 : t.count = 0
    · exact ⟨false, t, tableDelete_zero H t k hc0, tableGet_zero H t k hc0⟩
    · cases he : t.entries with
      | none => exact absurd (hwf.1 he) hc0
      | some arr =>
        obtain ⟨hlen, hne, hlt, huniq⟩ := hwf.2 arr he
        have hemp := exists_empty_of_count arr (by omega)
        have hfs := findEntry_isSome H arr k hlen hemp
        obtain ⟨r, hfind⟩ := Option.isSome_iff_exists.mp hfs
        have hr : r < arr.length := findEntry_lt H arr k r hlen hfind
        rcases findEntry_shape H arr k r hfind with hk | hk
        · exact ⟨false, t, tableDelete_unkeyed H t arr k r hc0 he hfind hk,
            tableGet_unkeyed H t arr k r hc0 he hfind hk⟩
        · have hdel := tableDelete_found H t arr k r k hc0 he hfind hk
          refine ⟨true, _, hdel, ?_⟩
          have hlen2 : (arr.set r ⟨none, Value.bool true⟩).length
              = arr.length := List.length_set arr r _
          have hemp2 : ∃ i, i < (arr.set r ⟨none, Value.bool true⟩).length ∧
              (slot (arr.set r ⟨none, Value.bool true⟩) i).isEmptySlot
                = true := by
            obtain ⟨ei, hei, heie⟩ := hemp
            have hne2 : r ≠ ei := by
              intro hc
              rw [← hc] at heie
              rw [Entry.isEmptySlot, hk] at heie
              simp at heie
            refine ⟨ei, by omega, ?_⟩
            rw [slot_set_other arr r ei _ hne2]
            exact heie
          have hfs2 := findEntry_isSome H (arr.set r ⟨none, Value.bool true⟩)
            k (by omega) hemp2
          obtain ⟨r2, hfind2⟩ := Option.isSome_iff_exists.mp hfs2
          rcases findEntry_shape H _ k r2 hfind2 with hk2 | hk2
          · exact tableGet_unkeyed H _ _ k r2 hc0 rfl hfind2 hk2
          · exfalso
            have hr2 : r2 < arr.length := by
              have := findEntry_lt H (arr.set r ⟨none, Value.bool true⟩)
                k r2 (by omega) hfind2
              omega
            have hne2 : r ≠ r2 := by
              intro hc
              rw [← hc] at hk2
              rw [slot_set_self arr r _ hr] at hk2
              cases hk2
            rw [slot_set_other arr r r2 _ hne2] at hk2
            exact hne2 (huniq k r r2 hr hr2 hk hk2)

/-- Witness for C7 at a concrete table: the empty table with identity
hash. -/
theorem table_set_get_delete_witness :
    TableWF ⟨0, none⟩ ∧
    ((∃ b t1, tableSet (fun n => n) ⟨0, none⟩ 5 (Value.int64 42)
        = some (b, t1) ∧
      tableGet (fun n => n) t1 5 = some (some (Value.int64 42))) ∧
    (∃ b t2, tableDelete (fun n => n) ⟨0, none⟩ 5 = some (b, t2) ∧
      tableGet (fun n => n) t2 5 = some none)) := by
  have hwf : TableWF ⟨0, none⟩ := ⟨fun _ => rfl, fun arr h => by cases h⟩
  exact ⟨hwf, table_set_get_delete (fun n => n) ⟨0, none⟩ 5 (Value.int64 42) hwf⟩

/-- C10: on any well-formed table in which the key is not present
(including the empty table with count 0), tableGet returns false without
writing through the out-parameter (modeled by the some none result), and
tableDelete returns false leaving the table unchanged: no tombstone is
written for an absent key. -/
theorem table_absent_get_delete (H : Nat → Nat) (t : Table) (k : Nat)
    (hwf : TableWF t) (habs : keyNotPresent t k) :
    tableGet H t k = some none ∧ tableDelete H t k = some (false, t) := by
  by_cases hc0 : t.count = 0
  · exact ⟨tableGet_zero H t k hc0, tableDelete_zero H t k hc0⟩
  · cases he : t.entries with
    | none => exact absurd (hwf.1 he) hc0
    | some arr =>
      obtain ⟨hlen, hne, hlt, _⟩ := hwf.2 arr he
      have hemp := exists_empty_of_count arr (by omega)
      have hfs := findEntry_isSome H arr k hlen hemp
      obtain ⟨r, hfind⟩ := Option.isSome_iff_exists.mp hfs
      have hr : r < arr.length := findEntry_lt H arr k r hlen hfind
      rcases findEntry_shape H arr k r hfind with hk | hk
      · exact ⟨tableGet_unkeyed H t arr k r hc0 he hfind hk,
          tableDelete_unkeyed H t arr k r hc0 he hfind hk⟩
      · exact absurd hk (habs arr he r hr)

/-- Witness for C10 at a concrete table: the empty table with identity
hash. -/
theorem table_absent_get_delete_witness :
    TableWF ⟨0, none⟩ ∧ keyNotPresent ⟨0, none⟩ 5 ∧
    (tableGet (fun n => n) ⟨0, none⟩ 5 = some none ∧
      tableDelete (fun n => n) ⟨0, none⟩ 5 = some (false, ⟨0, none⟩)) := by
  have hwf : TableWF ⟨0, none⟩ := ⟨fun _ => rfl, fun arr h => by cases h⟩
  have habs : keyNotPresent ⟨0, none⟩ 5 := fun arr h => by cases h
  exact ⟨hwf, habs, table_absent_get_delete (fun n => n) ⟨0, none⟩ 5 hwf habs⟩

/-!
## The page-node deque (src/qet/deque.hpp)

The deque is a circular doubly-linked ring of 4096-byte page nodes; for
pointer-sized elements each node holds COUNT = 510 slots and the first
node is entered at INIT = COUNT / 2.  The occupied region runs from _begin
to _end in next-order, so the ring is determined by: the number n of nodes,
the offset ob of _begin in its node (node index 0), the index k of the node
holding _end, and the offset oe of _end.  Nodes are indexed 0..n-1 in
next-order starting from the node containing _begin; the completely empty
cache nodes are exactly the indices k+1..n-1.  A null (default-constructed)
deque is modeled as none.
-/

/-- deque<T>::COUNT for pointer-sized T: (4096 - 2*8)/8 (deque.hpp 124-129). -/
def COUNT : Nat := 510

/-- deque<T>::INIT = COUNT / 2 (deque.hpp 128). -/
def INIT : Nat := 255

/-- Ring-shape state of a non-null deque (deque.hpp 119-146). -/
structure DequeState where
  n : Nat
  ob : Nat
  k : Nat
  oe : Nat
deriving DecidableEq

/-- _from_null (deque.hpp 159-163): one self-linked node, _begin = _end =
begin() + INIT. -/
def fromNull : DequeState := ⟨1, INIT, 0, INIT⟩

/-- empty(): _begin == _end (deque.hpp 279). -/
def DequeState.isEmpty (st : DequeState) : Bool :=
  st.k = 0 && st.ob = st.oe

/-- emplace_back (deque.hpp 301-315): write at _end, advance; on reaching
the node end, insert a fresh node before first when the next node is first,
then move _end to the next node's begin. -/
def emplaceBack (d : Option DequeState) : DequeState :=
  let st := d.getD fromNull
  let oe1 := st.oe + 1
  if oe1 = COUNT then
    if st.k = st.n - 1 then ⟨st.n + 1, st.ob, st.k + 1, 0⟩
    else ⟨st.n, st.ob, st.k + 1, 0⟩
  else ⟨st.n, st.ob, st.k, oe1⟩

/-- emplace_front (deque.hpp 320-336): when _begin is at its node's begin,
insert a fresh node before first when first's prev is last, and continue
from the previous node's end; then retreat _begin and write. -/
def emplaceFront (d : Option DequeState) : DequeState :=
  let st := d.getD fromNull
  if st.ob = 0 then
    if st.k = st.n - 1 then ⟨st.n + 1, COUNT - 1, st.k + 1, st.oe⟩
    else ⟨st.n, COUNT - 1, st.k + 1, st.oe⟩
  else ⟨st.n, st.ob - 1, st.k, st.oe⟩

/-- pop_front (deque.hpp 341-352): destroy and advance _begin; on reaching
the node's end either step into the next node (keeping the emptied node in
the ring) or, if the deque became empty, recenter both pointers.  No node is
ever freed. -/
def popFront (st : DequeState) : DequeState :=
  if st.ob + 1 = COUNT then
    if st.k = 0 && st.oe = st.ob + 1 then ⟨st.n, INIT, 0, INIT⟩
    else ⟨st.n, 0, st.k - 1, st.oe⟩
  else ⟨st.n, st.ob + 1, st.k, st.oe⟩

/-- pop_back (deque.hpp 354-363): when _end is at its node's begin, retreat
into the previous node (keeping the emptied node in the ring), then destroy
the last element.  No node is ever freed. -/
def popBack (st : DequeState) : DequeState :=
  if st.oe = 0 then ⟨st.n, st.ob, st.k - 1, COUNT - 1⟩
  else ⟨st.n, st.ob, st.k, st.oe - 1⟩

/-- shrink_to_fit (deque.hpp 377-392): when last->next differs from
first->prev, splice out and delete all nodes strictly between last and
first (the empty nodes); a single empty node makes the two pointers agree,
so it is kept. -/
def shrink_to_fit (d : Option DequeState) : Option DequeState :=
  match d with
  | none => none
  | some st =>
    if (st.k + 1) % st.n ≠ st.n - 1 then some ⟨st.k + 1, st.ob, st.k, st.oe⟩
    else some st

/-- The four mutating operations of the claim. -/
inductive DequeOp where
  | push_front
  | push_back
  | pop_front
  | pop_back
deriving DecidableEq

/-- One operation; pops on an empty (or null) deque violate the source's
assertion and have no defined result. -/
def stepOp (op : DequeOp) (d : Option DequeState) : Option (Option DequeState) :=
  match op with
  | .push_back => some (some (emplaceBack d))
  | .push_front => some (some (emplaceFront d))
  | .pop_front =>
    match d with
    | none => none
    | some st => if st.isEmpty then none else some (some (popFront st))
  | .pop_back =>
    match d with
    | none => none
    | some st => if st.isEmpty then none else some (some (popBack st))

/-- Run a list of operations from a starting state. -/
def runOps (l : List DequeOp) (d : Option DequeState) :
    Option (Option DequeState) :=
  match l with
  | [] => some d
  | op :: rest =>
    match stepOp op d with
    | none => none
    | some d2 => runOps rest d2

/-- Number of completely empty page nodes held by the deque. -/
def emptyNodes (d : Option DequeState) : Nat :=
  match d with
  | none => 0
  | some st => st.n - 1 - st.k

/-- Running a concatenated operation list continues from the intermediate
state. -/
theorem runOps_chain (l1 l2 : List DequeOp) (d d2 : Option DequeState)
    (h : runOps l1 d = some d2) :
    runOps (l1 ++ l2) d = runOps l2 d2 := by
  induction l1 generalizing d with
  | nil =>
    simp only [runOps] at h
    obtain rfl : d = d2 := Option.some.inj h
    rfl
  | cons op rest ih =>
    simp only [runOps, List.cons_append] at h ⊢
    cases hs : stepOp op d with
    | none => rw [hs] at h; cases h
    | some d3 =>
      rw [hs] at h
      exact ih d3 h

theorem emplaceBack_no_cross (st : DequeState) (h : st.oe + 1 < COUNT) :
    emplaceBack (some st) = ⟨st.n, st.ob, st.k, st.oe + 1⟩ := by
  simp only [emplaceBack, Option.getD_some]
  rw [if_neg (by omega : ¬st.oe + 1 = COUNT)]

theorem popFront_no_cross (st : DequeState) (h : st.ob + 1 < COUNT) :
    popFront st = ⟨st.n, st.ob + 1, st.k, st.oe⟩ := by
  simp only [popFront]
  rw [if_neg (by omega : ¬st.ob + 1 = COUNT)]

theorem stepOp_pop_front (st : DequeState) (hk : 0 < st.k) :
    stepOp DequeOp.pop_front (some st) = some (some (popFront st)) := by
  have hne : st.isEmpty = false := by
    simp [DequeState.isEmpty]
    omega
  simp only [stepOp, hne, Bool.false_eq_true, if_false]

/-- Pushing m elements at the back without crossing a page boundary only
advances the end offset. -/
theorem runOps_push_fill (m : Nat) :
    ∀ st : DequeState, st.oe + m < COUNT →
      runOps (List.replicate m DequeOp.push_back) (some st) =
        some (some ⟨st.n, st.ob, st.k, st.oe + m⟩) := by
  induction m with
  | zero => intro st _; rfl
  | succ p ih =>
    intro st h
    rw [List.replicate_succ]
    have hstep : stepOp DequeOp.push_back (some st)
        = some (some (emplaceBack (some st))) := rfl
    simp only [runOps, hstep]
    rw [emplaceBack_no_cross st (by omega)]
    have hres := ih ⟨st.n, st.ob, st.k, st.oe + 1⟩ (by simp; omega)
    rw [hres]
    have : st.oe + 1 + p = st.oe + (p + 1) := by omega
    rw [this]

/-- Popping m elements from the front without crossing a page boundary and
without emptying the deque (the end lies in a later node) only advances the
begin offset. -/
theorem runOps_pop_fill (m : Nat) :
    ∀ st : DequeState, 0 < st.k → st.ob + m < COUNT →
      runOps (List.replicate m DequeOp.pop_front) (some st) =
        some (some ⟨st.n, st.ob + m, st.k, st.oe⟩) := by
  induction m with
  | zero => intro st _ _; rfl
  | succ p ih =>
    intro st hk h
    rw [List.replicate_succ]
    simp only [runOps, stepOp_pop_front st hk]
    rw [popFront_no_cross st (by omega)]
    have hres := ih ⟨st.n, st.ob + 1, st.k, st.oe⟩ (by simpa using hk)
      (by simp; omega)
    rw [hres]
    have : st.ob + 1 + p = st.ob + (p + 1) := by omega
    rw [this]

/-- C9 counterexample: pushing 1275 elements at the back (filling two and a
half pages and opening a fourth) and then popping them all from the front
leaves an empty deque that still holds four page nodes, three of them
empty: pops never free nodes, so the container does not keep at most one
empty node per side. -/
theorem deque_empty_nodes_accumulate :
    runOps (List.replicate 1275 DequeOp.push_back ++
        List.replicate 1275 DequeOp.pop_front) none =
      some (some ⟨4, 0, 0, 0⟩) ∧
    emptyNodes (some ⟨4, 0, 0, 0⟩) = 3 := by
  have e1 : List.replicate 1275 DequeOp.push_back =
      List.replicate 1 DequeOp.push_back ++
        (List.replicate 253 DequeOp.push_back ++
          (List.replicate 1 DequeOp.push_back ++
            (List.replicate 509 DequeOp.push_back ++
              (List.replicate 1 DequeOp.push_back ++
                (List.replicate 509 DequeOp.push_back ++
                  List.replicate 1 DequeOp.push_back))))) := by
    rw [show (1275 : Nat) = 1 + (253 + (1 + (509 + (1 + (509 + 1)))))
      from by norm_num]
    simp only [List.replicate_add]
  have e2 : List.replicate 1275 DequeOp.pop_front =
      List.replicate 254 DequeOp.pop_front ++
        (List.replicate 1 DequeOp.pop_front ++
          (List.replicate 509 DequeOp.pop_front ++
            (List.replicate 1 DequeOp.pop_front ++
              (List.replicate 509 DequeOp.pop_front ++
                List.replicate 1 DequeOp.pop_front)))) := by
    rw [show (1275 : Nat) = 254 + (1 + (509 + (1 + (509 + 1))))
      from by norm_num]
    simp only [List.replicate_add]
  have s1 : runOps (List.replicate 1 DequeOp.push_back) none =
      some (some ⟨1, 255, 0, 256⟩) := by decide
  have s2 : runOps (List.replicate 253 DequeOp.push_back)
      (some ⟨1, 255, 0, 256⟩) = some (some ⟨1, 255, 0, 509⟩) := by
    have h := runOps_push_fill 253 ⟨1, 255, 0, 256⟩ (by decide)
    norm_num at h
    exact h
  have s3 : runOps (List.replicate 1 DequeOp.push_back)
      (some ⟨1, 255, 0, 509⟩) = some (some ⟨2, 255, 1, 0⟩) := by decide
  have s4 : runOps (List.replicate 509 DequeOp.push_back)
      (some ⟨2, 255, 1, 0⟩) = some (some ⟨2, 255, 1, 509⟩) := by
    have h := runOps_push_fill 509 ⟨2, 255, 1, 0⟩ (by decide)
    norm_num at h
    exact h
  have s5 : runOps (List.replicate 1 DequeOp.push_back)
      (some ⟨2, 255, 1, 509⟩) = some (some ⟨3, 255, 2, 0⟩) := by decide
  have s6 : runOps (List.replicate 509 DequeOp.push_back)
      (some ⟨3, 255, 2, 0⟩) = some (some ⟨3, 255, 2, 509⟩) := by
    have h := runOps_push_fill 509 ⟨3, 255, 2, 0⟩ (by decide)
    norm_num at h
    exact h
  have s7 : runOps (List.replicate 1 DequeOp.push_back)
      (some ⟨3, 255, 2, 509⟩) = some (some ⟨4, 255, 3, 0⟩) := by decide
  have p1 : runOps (List.replicate 254 DequeOp.pop_front)
      (some ⟨4, 255, 3, 0⟩) = some (some ⟨4, 509, 3, 0⟩) := by
    have h := runOps_pop_fill 254 ⟨4, 255, 3, 0⟩ (by decide) (by decide)
    norm_num at h
    exact h
  have p2 : runOps (List.replicate 1 DequeOp.pop_front)
      (some ⟨4, 509, 3, 0⟩) = some (some ⟨4, 0, 2, 0⟩) := by decide
  have p3 : runOps (List.replicate 509 DequeOp.pop_front)
      (some ⟨4, 0, 2, 0⟩) = some (some ⟨4, 509, 2, 0⟩) := by
    have h := runOps_pop_fill 509 ⟨4, 0, 2, 0⟩ (by decide) (by decide)
    norm_num at h
    exact h
  have p4 : runOps (List.replicate 1 DequeOp.pop_front)
      (some ⟨4, 509, 2, 0⟩) = some (some ⟨4, 0, 1, 0⟩) := by decide
  have p5 : runOps (List.replicate 509 DequeOp.pop_front)
      (some ⟨4, 0, 1, 0⟩) = some (some ⟨4, 509, 1, 0⟩) := by
    have h := runOps_pop_fill 509 ⟨4, 0, 1, 0⟩ (by decide) (by decide)
    norm_num at h
    exact h
  have p6 : runOps (List.replicate 1 DequeOp.pop_front)
      (some ⟨4, 509, 1, 0⟩) = some (some ⟨4, 0, 0, 0⟩) := by decide
  have hpush : runOps (List.replicate 1275 DequeOp.push_back) none =
      some (some ⟨4, 255, 3, 0⟩) := by
    rw [e1, runOps_chain _ _ _ _ s1, runOps_chain _ _ _ _ s2,
      runOps_chain _ _ _ _ s3, runOps_chain _ _ _ _ s4,
      runOps_chain _ _ _ _ s5, runOps_chain _ _ _ _ s6]
    exact s7
  have hpop : runOps (List.replicate 1275 DequeOp.pop_front)
      (some ⟨4, 255, 3, 0⟩) = some (some ⟨4, 0, 0, 0⟩) := by
    rw [e2, runOps_chain _ _ _ _ p1, runOps_chain _ _ _ _ p2,
      runOps_chain _ _ _ _ p3, runOps_chain _ _ _ _ p4,
      runOps_chain _ _ _ _ p5]
    exact p6
  refine ⟨?_, rfl⟩
  rw [runOps_chain _ _ _ _ hpush]
  exact hpop

/-- C9 amended: the pop operations keep every page node in the ring, so the
deque may retain arbitrarily many empty nodes; shrink_to_fit removes the
excess: it deletes all the empty nodes when there are at least two and
leaves a lone empty node in place, so afterwards at most one empty node
remains, and the occupied region (begin offset, end node, end offset) is
untouched. -/
theorem deque_cache_amended (st : DequeState) (hn : 0 < st.n)
    (hk : st.k < st.n) :
    (popFront st).n = st.n ∧ (popBack st).n = st.n ∧
    (∃ st2, shrink_to_fit (some st) = some st2 ∧
      st2.n - 1 - st2.k ≤ 1 ∧ st2.k = st.k ∧ st2.ob = st.ob ∧
      st2.oe = st.oe) := by
  refine ⟨?_, ?_, ?_⟩
  · unfold popFront
    split <;> try rfl
    split <;> rfl
  · unfold popBack
    split <;> rfl
  · simp only [shrink_to_fit]
    by_cases hc : (st.k + 1) % st.n ≠ st.n - 1
    · rw [if_pos hc]
      exact ⟨_, rfl, by show st.k + 1 - 1 - st.k ≤ 1; omega, rfl, rfl, rfl⟩
    · rw [if_neg hc]
      refine ⟨st, rfl, ?_, rfl, rfl, rfl⟩
      rw [Decidable.not_not] at hc
      rcases Nat.lt_or_ge (st.k + 1) st.n with hlt | hge
      · rw [Nat.mod_eq_of_lt hlt] at hc
        omega
      · have hkn : st.k + 1 = st.n := by omega
        rw [hkn, Nat.mod_self] at hc
        omega

/-- Witness for deque_cache_amended at the state reached in the
counterexample run before the final pops. -/
theorem deque_cache_amended_witness :
    (0 < (4:Nat) ∧ (3:Nat) < 4) ∧
    ((popFront ⟨4, 255, 3, 0⟩).n = 4 ∧ (popBack ⟨4, 255, 3, 0⟩).n = 4 ∧
    (∃ st2, shrink_to_fit (some ⟨4, 255, 3, 0⟩) = some st2 ∧
      st2.n - 1 - st2.k ≤ 1 ∧ st2.k = 3 ∧ st2.ob = 255 ∧ st2.oe = 0)) :=
  ⟨by decide, deque_cache_amended ⟨4, 255, 3, 0⟩ (by decide) (by decide)⟩

/-!
## The Ctrie string intern set (src/qet/string.cpp, string.hpp)

SNodes are identified by allocation order: an SN carries its id (the
pointer identity: the allocator hands out fresh ids, so two SNs are the
same object exactly when their ids are equal), its stored _hash and its
byte payload (view).  Colors live outside the trie in a map from id to
color, since mutators and the collector update them through the shared
object; Mem also carries the allocation counter.

A CNode's 64-bit bitmap bmp plus packed branch array is modeled as an
association list from the 6-bit slot index to the branch, ordered by slot
index: bit a of bmp is set exactly when slot a is a key of the list, and
flagpos's popcount of bmp below the flag is the rank of a in the key
order, so bitmap membership tests become lookupBranch and the
memcpy-based inserted/updated/removed become insertBranch, updateBranch
and removeBranch at the slot key.  INodes hold their main node; in the
sequential (single-mutator) embedding every compare-exchange on an
INode's main succeeds, so an INode is represented by its main node and a
CAS becomes the rebuild of the enclosing node.  The _gc_shade_weak calls
that the CNode copy helpers issue on structural (INode) children only
recolor trie-internal nodes and set the dirty flag; they do not feed back
into any operation modeled here and are omitted.  TNode::_emplace and
TNode::_erase clean the parent and restart; in the rebuild style this is
performed where the parent dispatches on an INode child whose main is a
TNode.  Partiality (assertion failures, the out-of-bounds array[0] read
of toContracted on an empty CNode, a null parent for a root-level TNode,
and exhausted restart fuel) is modeled by Option.
-/

/-- An interned string object: pointer identity id, stored _hash, byte
payload (string.hpp 140-142). -/
structure SN where
  id : Nat
  hash : Nat
  view : List Nat
deriving DecidableEq

/-- A lookup Query: byte payload and its hash (string.hpp 21-54). -/
structure Query where
  view : List Nat
  hash : Nat
deriving DecidableEq

/-- Thread-local configuration used by SNode::_emplace (local.WHITE) and
Object::Object (local.ALLOC). -/
structure MutCtx where
  WHITE : Nat
  ALLOC : Nat

/-- The color map (object color fields, addressed by id) together with
the allocation counter. -/
structure Mem where
  colors : Nat → Nat
  next : Nat

/- Ctrie node kinds.  BNode (branch) is INode or SNode; an INode is
represented by its main MNode; MNode (main) is CNode, TNode or LNode
(string.hpp 61-68). -/
mutual
inductive MNode where
  | cnode (branches : List (Nat × BNode))
  | tnode (sn : SN)
  | lnode (sns : List SN)
inductive BNode where
  | inode (main : MNode)
  | snode (sn : SN)
end

/-- Result of one descent (string.hpp 56-59). -/
inductive Result where
  | RESTART
  | OK
deriving DecidableEq

/-- Test of flag & bmp plus array[pos] access: find the branch at slot
index a (string.cpp 512-517, 627). -/
def lookupBranch (a : Nat) : List (Nat × BNode) → Option BNode
  | [] => none
  | (k, b) :: rest => if a = k then some b else lookupBranch a rest

/-- CNode::inserted (string.cpp 519-533): place a new branch at the rank
of its slot index. -/
def insertBranch (a : Nat) (b : BNode) : List (Nat × BNode) → List (Nat × BNode)
  | [] => [(a, b)]
  | (k, c) :: rest =>
    if a < k then (a, b) :: (k, c) :: rest else (k, c) :: insertBranch a b rest

/-- CNode::updated (string.cpp 535-547): replace the branch at a slot. -/
def updateBranch (a : Nat) (b : BNode) : List (Nat × BNode) → List (Nat × BNode)
  | [] => []
  | (k, c) :: rest =>
    if a = k then (a, b) :: rest else (k, c) :: updateBranch a b rest

/-- CNode::removed (string.cpp 549-563): delete the branch at a slot. -/
def removeBranch (a : Nat) : List (Nat × BNode) → List (Nat × BNode)
  | [] => []
  | (k, c) :: rest => if a = k then rest else (k, c) :: removeBranch a rest

/-- resurrect (string.cpp 136-138, 184, 204-206, 322-324): an INode whose
main is a TNode resurrects to the entombed SNode; everything else is
unchanged. -/
def resurrect (b : BNode) : BNode :=
  match b with
  | .inode (.tnode s) => .snode s
  | _ => b

/-- toContracted (string.cpp 153-158): at level 0 or with more than one
branch the CNode stands; a single SNode branch is entombed in a TNode; a
single INode branch stands; an empty CNode reads array[0] out of bounds
(none). -/
def toContracted (bs : List (Nat × BNode)) (lev : Nat) : Option MNode :=
  if lev = 0 ∨ 1 < bs.length then some (.cnode bs)
  else
    match bs with
    | [] => none
    | (_, b) :: _ =>
      match b with
      | .snode s => some (.tnode s)
      | .inode _ => some (.cnode bs)

/-- toCompressed (string.cpp 140-151): resurrect every branch, then
contract. -/
def toCompressed (bs : List (Nat × BNode)) (lev : Nat) : Option MNode :=
  toContracted (bs.map (fun p => (p.1, resurrect p.2))) lev

/-- SNode::_make (string.cpp 221-223) with Object::Object (gc.hpp
373-377): allocate a fresh SNode carrying the query's hash and bytes,
colored local.ALLOC. -/
def SNode_make (ctx : MutCtx) (q : Query) (mem : Mem) : SN × Mem :=
  (⟨mem.next, q.hash, q.view⟩,
    ⟨fun i => if i = mem.next then ctx.ALLOC else mem.colors i, mem.next + 1⟩)

/-- CNode::make(sn1, sn2, lev) (string.cpp 567-607): split by the 6-bit
slot indices; on a shared prefix recurse one level deeper, bottoming out
in an LNode list e(sn2) -> d(sn1) past 64 bits. -/
def CNode_make (sn1 sn2 : SN) (lev : Nat) : MNode :=
  let a1 := (sn1.hash >>> lev) % 64
  let a2 := (sn2.hash >>> lev) % 64
  if a1 = a2 then
    if h : lev + 6 < 64 then .cnode [(a1, .inode (CNode_make sn1 sn2 (lev + 6)))]
    else .cnode [(a1, .inode (.lnode [sn2, sn1]))]
  else if a1 < a2 then .cnode [(a1, .snode sn1), (a2, .snode sn2)]
  else .cnode [(a2, .snode sn2), (a1, .snode sn1)]
termination_by 64 - lev

/-- First list cell whose SNode has the given bytes is replaced (the rest
of LNode::inserted's copied prefix is structural sharing). -/
def replaceFirstView (v : List Nat) (nsn : SN) : List SN → List SN
  | [] => []
  | s :: rest =>
    if s.view = v then nsn :: rest else s :: replaceFirstView v nsn rest

/-- LNode::inserted (string.cpp 399-436): if some cell holds the queried
bytes, rebuild the list with a fresh SNode in its place; otherwise
prepend a fresh SNode. -/
def LNode_inserted (ctx : MutCtx) (q : Query) (sns : List SN) (mem : Mem) :
    List SN × Mem :=
  let (nsn, mem2) := SNode_make ctx q mem
  if sns.any (fun s => s.view = q.view) then (replaceFirstView q.view nsn sns, mem2)
  else (nsn :: sns, mem2)

/-- LNode::removed (string.cpp 438-472): drop the first cell holding the
searched SNode (pointer comparison), reporting it; an absent SNode leaves
the list as it was. -/
def LNode_removed (k : SN) : List SN → List SN × Option SN
  | [] => ([], none)
  | s :: rest =>
    if s = k then (rest, some s)
    else
      match LNode_removed k rest with
      | (_, none) => (s :: rest, none)
      | (nr, some x) => (s :: nr, some x)

/-- One emplace descent (string.cpp 680-682, 614-629, 272-301, 475-486,
353-356, 194-197).  The outer Option is partiality: exhausted fuel, the
GRAY assertion in SNode::_emplace, a root-level TNode (null parent in
clean), or a failing toCompressed. -/
def iinsert : Nat → MutCtx → MNode → Query → Nat → Mem →
    Option (Result × Option SN × MNode × Mem)
  | 0, _, _, _, _, _ => none
  | fuel + 1, ctx, m, q, lev, mem =>
    match m with
    | .tnode _ => none
    | .lnode sns =>
      let p := LNode_inserted ctx q sns mem
      some (.OK, none, .lnode p.1, p.2)
    | .cnode bs =>
      let a := (q.hash >>> lev) % 64
      match lookupBranch a bs with
      | none =>
        let p := SNode_make ctx q mem
        some (.OK, some p.1, .cnode (insertBranch a (.snode p.1) bs), p.2)
      | some (.snode sn) =>
        if sn.hash = q.hash ∧ sn.view = q.view then
          if mem.colors sn.id = ctx.WHITE then
            some (.OK, some sn, .cnode bs,
              ⟨fun i => if i = sn.id then ctx.WHITE ^^^ 1 else mem.colors i,
                mem.next⟩)
          else if mem.colors sn.id = GRAY then none
          else if mem.colors sn.id = RED then
            let p := SNode_make ctx q mem
            some (.OK, some p.1, .cnode (updateBranch a (.snode p.1) bs), p.2)
          else some (.OK, some sn, .cnode bs, mem)
        else
          let p := SNode_make ctx q mem
          some (.OK, some p.1,
            .cnode (updateBranch a (.inode (CNode_make sn p.1 (lev + 6))) bs),
            p.2)
      | some (.inode m2) =>
        match m2 with
        | .tnode _ =>
          match toCompressed bs lev with
          | none => none
          | some m3 => some (.RESTART, none, m3, mem)
        | _ =>
          match iinsert fuel ctx m2 q (lev + 6) mem with
          | none => none
          | some (res, v, m2b, mem2) =>
            some (res, v, .cnode (updateBranch a (.inode m2b) bs), mem2)

/-- Ctrie::emplace (string.cpp 711-720): retry the descent from the root
until it does not RESTART; the assert(v2) makes a null result fatal. -/
def Ctrie_emplace : Nat → MutCtx → MNode → Query → Mem →
    Option (SN × MNode × Mem)
  | 0, _, _, _, _ => none
  | fuel + 1, ctx, m, q, mem =>
    match iinsert (fuel + 1) ctx m q 0 mem with
    | none => none
    | some (.RESTART, _, m2, mem2) => Ctrie_emplace fuel ctx m2 q mem2
    | some (.OK, some sn, m2, mem2) => some (sn, m2, mem2)
    | some (.OK, none, _, _) => none

/-- One erase descent (string.cpp 688-690, 631-643, 305-320, 488-502,
358-361, 379-381, 363-377, 199-202).  The colors map is untouched:
erasing never writes a color. -/
def iremove : Nat → MNode → SN → Nat → Option (Result × Option SN × MNode)
  | 0, _, _, _ => none
  | fuel + 1, m, k, lev =>
    match m with
    | .tnode _ => none
    | .lnode sns =>
      match LNode_removed k sns with
      | (nln, v) =>
        match nln with
        | [] => none
        | [x] => some (.OK, v, .tnode x)
        | _ :: _ :: _ => some (.OK, v, .lnode nln)
    | .cnode bs =>
      let a := (k.hash >>> lev) % 64
      match lookupBranch a bs with
      | none => some (.OK, none, .cnode bs)
      | some (.snode sn) =>
        if sn = k then
          match toContracted (removeBranch a bs) lev with
          | none => none
          | some m2 => some (.OK, some sn, m2)
        else some (.OK, none, .cnode bs)
      | some (.inode m2) =>
        match m2 with
        | .tnode _ =>
          match toCompressed bs lev with
          | none => none
          | some m3 => some (.RESTART, none, m3)
        | _ =>
          match iremove fuel m2 k (lev + 6) with
          | none => none
          | some (res, v, m2b) =>
            match res, m2b with
            | .OK, .tnode s2 =>
              match toContracted (updateBranch a (.snode s2) bs) lev with
              | none => none
              | some m3 => some (.OK, v, m3)
            | _, _ => some (res, v, .cnode (updateBranch a (.inode m2b) bs))

/-- Ctrie::remove (string.cpp 722-730): retry the descent from the root
until it does not RESTART. -/
def Ctrie_remove : Nat → MNode → SN → Option (Option SN × MNode)
  | 0, _, _ => none
  | fuel + 1, m, k =>
    match iremove (fuel + 1) m k 0 with
    | none => none
    | some (.RESTART, _, m2) => Ctrie_remove fuel m2 k
    | some (.OK, v, m2) => some (v, m2)

/- Structural membership of an SNode in a (sub)trie: at a CNode through any
branch, at a TNode as the entombed node, at an LNode as a list cell. -/
mutual
inductive ContainsM : MNode → SN → Prop where
  | cnodeMem {bs : List (Nat × BNode)} {a : Nat} {b : BNode} {s : SN} :
      (a, b) ∈ bs → ContainsB b s → ContainsM (.cnode bs) s
  | tnodeSelf {s : SN} : ContainsM (.tnode s) s
  | lnodeMem {sns : List SN} {s : SN} : s ∈ sns → ContainsM (.lnode sns) s
inductive ContainsB : BNode → SN → Prop where
  | inodeMem {m : MNode} {s : SN} : ContainsM m s → ContainsB (.inode m) s
  | snodeSelf {s : SN} : ContainsB (.snode s) s
end

/- Hash-path well-formedness at a level: a CNode's slot keys are distinct
(the bitmap is a set) and every SNode under a branch hashes to that
branch's slot at this level. -/
mutual
inductive WfM : MNode → Nat → Prop where
  | cnode {bs : List (Nat × BNode)} {lev : Nat} :
      (bs.map Prod.fst).Nodup →
      (∀ a b, (a, b) ∈ bs → ∀ s, ContainsB b s → (s.hash >>> lev) % 64 = a) →
      (∀ a b, (a, b) ∈ bs → WfB b (lev + 6)) →
      WfM (.cnode bs) lev
  | tnode {s : SN} {lev : Nat} : WfM (.tnode s) lev
  | lnode {sns : List SN} {lev : Nat} : WfM (.lnode sns) lev
inductive WfB : BNode → Nat → Prop where
  | inode {m : MNode} {lev : Nat} : WfM m lev → WfB (.inode m) lev
  | snode {s : SN} {lev : Nat} : WfB (.snode s) lev
end

/- No TNode anywhere: the state of a trie on which no removal has recently
contracted a branch. -/
mutual
inductive TombFreeM : MNode → Prop where
  | cnode {bs : List (Nat × BNode)} :
      (∀ a b, (a, b) ∈ bs → TombFreeB b) → TombFreeM (.cnode bs)
  | lnode {sns : List SN} : TombFreeM (.lnode sns)
inductive TombFreeB : BNode → Prop where
  | inode {m : MNode} : TombFreeM m → TombFreeB (.inode m)
  | snode {s : SN} : TombFreeB (.snode s)
end

/- Every LNode list is duplicate-free (each interned object appears in one
cell only). -/
mutual
inductive NodupLM : MNode → Prop where
  | cnode {bs : List (Nat × BNode)} :
      (∀ a b, (a, b) ∈ bs → NodupLB b) → NodupLM (.cnode bs)
  | tnode {s : SN} : NodupLM (.tnode s)
  | lnode {sns : List SN} : sns.Nodup → NodupLM (.lnode sns)
inductive NodupLB : BNode → Prop where
  | inode {m : MNode} : NodupLM m → NodupLB (.inode m)
  | snode {s : SN} : NodupLB (.snode s)
end

theorem lookupBranch_mem (a : Nat) (bs : List (Nat × BNode)) (b : BNode)
    (h : lookupBranch a bs = some b) : (a, b) ∈ bs := by
  induction bs with
  | nil => cases h
  | cons p rest ih =>
    obtain ⟨k, c⟩ := p
    by_cases hk : a = k
    · subst hk
      simp only [lookupBranch, if_pos rfl] at h
      obtain rfl : c = b := Option.some.inj h
      exact List.mem_cons_self _ _
    · simp only [lookupBranch, if_neg hk] at h
      exact List.mem_cons_of_mem _ (ih h)

theorem mem_lookupBranch (a : Nat) (bs : List (Nat × BNode)) (b : BNode)
    (hnd : (bs.map Prod.fst).Nodup) (h : (a, b) ∈ bs) :
    lookupBranch a bs = some b := by
  induction bs with
  | nil => cases h
  | cons p rest ih =>
    obtain ⟨k, c⟩ := p
    simp only [List.map_cons, List.nodup_cons] at hnd
    rcases List.mem_cons.mp h with heq | hmem
    · have h1 : a = k := congrArg Prod.fst heq
      have h2 : b = c := congrArg Prod.snd heq
      subst h1; subst h2
      simp [lookupBranch]
    · have hka : a ≠ k := by
        intro hc
        subst hc
        exact hnd.1 (List.mem_map.mpr ⟨(a, b), hmem, rfl⟩)
      simp only [lookupBranch, if_neg hka]
      exact ih hnd.2 hmem

theorem lookupBranch_none (a : Nat) (bs : List (Nat × BNode))
    (h : lookupBranch a bs = none) : ∀ b, (a, b) ∉ bs := by
  induction bs with
  | nil => intro b hb; cases hb
  | cons p rest ih =>
    obtain ⟨k, c⟩ := p
    by_cases hk : a = k
    · subst hk; simp [lookupBranch] at h
    · simp only [lookupBranch, if_neg hk] at h
      intro b hb
      rcases List.mem_cons.mp hb with heq | hmem
      · exact hk (congrArg Prod.fst heq)
      · exact ih h b hmem

theorem mem_insertBranch (a : Nat) (b : BNode) (bs : List (Nat × BNode))
    (x : Nat × BNode) : x ∈ insertBranch a b bs ↔ x = (a, b) ∨ x ∈ bs := by
  induction bs with
  | nil => simp [insertBranch]
  | cons p rest ih =>
    obtain ⟨k, c⟩ := p
    by_cases hk : a < k
    · rw [insertBranch, if_pos hk]
      simp only [List.mem_cons]
    · rw [insertBranch, if_neg hk]
      simp only [List.mem_cons, ih]
      tauto

theorem map_fst_updateBranch (a : Nat) (b : BNode) (bs : List (Nat × BNode)) :
    (updateBranch a b bs).map Prod.fst = bs.map Prod.fst := by
  induction bs with
  | nil => rfl
  | cons p rest ih =>
    obtain ⟨k, c⟩ := p
    by_cases hk : a = k
    · subst hk; simp [updateBranch]
    · simp [updateBranch, if_neg hk, ih]

theorem mem_updateBranch (a : Nat) (b : BNode) (bs : List (Nat × BNode))
    (x : Nat × BNode) (h : x ∈ updateBranch a b bs) :
    x = (a, b) ∨ x ∈ bs := by
  induction bs with
  | nil => cases h
  | cons p rest ih =>
    obtain ⟨k, c⟩ := p
    by_cases hk : a = k
    · subst hk
      rw [updateBranch, if_pos rfl] at h
      rcases List.mem_cons.mp h with h1 | h1
      · exact Or.inl h1
      · exact Or.inr (List.mem_cons_of_mem _ h1)
    · rw [updateBranch, if_neg hk] at h
      rcases List.mem_cons.mp h with h1 | h1
      · exact Or.inr (h1 ▸ List.mem_cons_self _ _)
      · rcases ih h1 with h2 | h2
        · exact Or.inl h2
        · exact Or.inr (List.mem_cons_of_mem _ h2)

theorem mem_removeBranch (a : Nat) (bs : List (Nat × BNode))
    (x : Nat × BNode) (h : x ∈ removeBranch a bs) : x ∈ bs := by
  induction bs with
  | nil => cases h
  | cons p rest ih =>
    obtain ⟨k, c⟩ := p
    by_cases hk : a = k
    · subst hk
      simp only [removeBranch, if_pos rfl] at h
      exact List.mem_cons_of_mem _ h
    · simp only [removeBranch, if_neg hk, List.mem_cons] at h
      rcases h with h | h
      · exact h ▸ List.mem_cons_self _ _
      · exact List.mem_cons_of_mem _ (ih h)

theorem insertBranch_keys_nodup (a : Nat) (b : BNode)
    (bs : List (Nat × BNode)) (hnd : (bs.map Prod.fst).Nodup)
    (habs : ∀ c, (a, c) ∉ bs) :
    ((insertBranch a b bs).map Prod.fst).Nodup := by
  induction bs with
  | nil => simp [insertBranch]
  | cons p rest ih =>
    obtain ⟨k, c⟩ := p
    simp only [List.map_cons, List.nodup_cons] at hnd
    by_cases hk : a < k
    · rw [insertBranch, if_pos hk]
      simp only [List.map_cons, List.nodup_cons]
      refine ⟨?_, hnd.1, hnd.2⟩
      intro hmem
      simp only [List.mem_cons] at hmem
      rcases hmem with h | h
      · exact absurd h (by omega)
      · obtain ⟨⟨k2, c2⟩, hm, hfst⟩ := List.mem_map.mp h
        have hk2 : k2 = a := hfst
        subst hk2
        exact habs c2 (List.mem_cons_of_mem _ hm)
    · rw [insertBranch, if_neg hk]
      simp only [List.map_cons, List.nodup_cons]
      have hka : a ≠ k := fun hc => habs c (hc ▸ List.mem_cons_self _ _)
      refine ⟨?_, ih hnd.2 (fun c2 hc2 => habs c2 (List.mem_cons_of_mem _ hc2))⟩
      intro hmem
      obtain ⟨⟨k2, c2⟩, hm, hfst⟩ := List.mem_map.mp hmem
      rcases (mem_insertBranch a b rest (k2, c2)).mp hm with h2 | h2
      · have h3 : k2 = a := congrArg Prod.fst h2
        have hk2 : k2 = k := hfst
        exact hka (h3 ▸ hk2)
      · exact hnd.1 (List.mem_map.mpr ⟨(k2, c2), h2, hfst⟩)

theorem iinsert_step_lnode (fuel : Nat) (ctx : MutCtx) (sns : List SN)
    (q : Query) (lev : Nat) (mem : Mem) :
    iinsert (fuel + 1) ctx (.lnode sns) q lev mem =
      some (.OK, none, .lnode (LNode_inserted ctx q sns mem).1,
        (LNode_inserted ctx q sns mem).2) := rfl

theorem iinsert_step_tnode (fuel : Nat) (ctx : MutCtx) (s : SN)
    (q : Query) (lev : Nat) (mem : Mem) :
    iinsert (fuel + 1) ctx (.tnode s) q lev mem = none := rfl

theorem iinsert_step_missing (fuel : Nat) (ctx : MutCtx)
    (bs : List (Nat × BNode)) (q : Query) (lev : Nat) (mem : Mem)
    (h : lookupBranch ((q.hash >>> lev) % 64) bs = none) :
    iinsert (fuel + 1) ctx (.cnode bs) q lev mem =
      some (.OK, some (SNode_make ctx q mem).1,
        .cnode (insertBranch ((q.hash >>> lev) % 64)
          (.snode (SNode_make ctx q mem).1) bs),
        (SNode_make ctx q mem).2) := by
  simp only [iinsert]
  rw [h]

theorem iinsert_step_snode (fuel : Nat) (ctx : MutCtx)
    (bs : List (Nat × BNode)) (q : Query) (lev : Nat) (mem : Mem) (sn : SN)
    (h : lookupBranch ((q.hash >>> lev) % 64) bs = some (.snode sn)) :
    iinsert (fuel + 1) ctx (.cnode bs) q lev mem =
      (if sn.hash = q.hash ∧ sn.view = q.view then
        if mem.colors sn.id = ctx.WHITE then
          some (.OK, some sn, .cnode bs,
            ⟨fun i => if i = sn.id then ctx.WHITE ^^^ 1 else mem.colors i,
              mem.next⟩)
        else if mem.colors sn.id = GRAY then none
        else if mem.colors sn.id = RED then
          some (.OK, some (SNode_make ctx q mem).1,
            .cnode (updateBranch ((q.hash >>> lev) % 64)
              (.snode (SNode_make ctx q mem).1) bs),
            (SNode_make ctx q mem).2)
        else some (.OK, some sn, .cnode bs, mem)
      else
        some (.OK, some (SNode_make ctx q mem).1,
          .cnode (updateBranch ((q.hash >>> lev) % 64)
            (.inode (CNode_make sn (SNode_make ctx q mem).1 (lev + 6))) bs),
          (SNode_make ctx q mem).2)) := by
  simp only [iinsert]
  rw [h]

theorem iinsert_step_inode_tnode (fuel : Nat) (ctx : MutCtx)
    (bs : List (Nat × BNode)) (q : Query) (lev : Nat) (mem : Mem) (s : SN)
    (h : lookupBranch ((q.hash >>> lev) % 64) bs = some (.inode (.tnode s))) :
    iinsert (fuel + 1) ctx (.cnode bs) q lev mem =
      (match toCompressed bs lev with
      | none => none
      | some m3 => some (.RESTART, none, m3, mem)) := by
  simp only [iinsert]
  rw [h]

theorem iinsert_step_inode_none (fuel : Nat) (ctx : MutCtx)
    (bs : List (Nat × BNode)) (q : Query) (lev : Nat) (mem : Mem)
    (m2 : MNode) (h : lookupBranch ((q.hash >>> lev) % 64) bs = some (.inode m2))
    (h2 : ∀ s, m2 ≠ .tnode s)
    (hrec : iinsert fuel ctx m2 q (lev + 6) mem = none) :
    iinsert (fuel + 1) ctx (.cnode bs) q lev mem = none := by
  simp only [iinsert]
  rw [h]
  cases m2 with
  | tnode s => exact absurd rfl (h2 s)
  | cnode bs2 => simp only [hrec]
  | lnode sns => simp only [hrec]

theorem iinsert_step_inode_some (fuel : Nat) (ctx : MutCtx)
    (bs : List (Nat × BNode)) (q : Query) (lev : Nat) (mem : Mem)
    (m2 : MNode) (h : lookupBranch ((q.hash >>> lev) % 64) bs = some (.inode m2))
    (h2 : ∀ s, m2 ≠ .tnode s) (res : Result) (v : Option SN) (m2b : MNode)
    (mem2 : Mem)
    (hrec : iinsert fuel ctx m2 q (lev + 6) mem = some (res, v, m2b, mem2)) :
    iinsert (fuel + 1) ctx (.cnode bs) q lev mem =
      some (res, v,
        .cnode (updateBranch ((q.hash >>> lev) % 64) (.inode m2b) bs), mem2) := by
  simp only [iinsert]
  rw [h]
  cases m2 with
  | tnode s => exact absurd rfl (h2 s)
  | cnode bs2 => simp only [hrec]
  | lnode sns => simp only [hrec]

theorem mem_updateBranch_self (a : Nat) (b c : BNode)
    (bs : List (Nat × BNode)) (h : lookupBranch a bs = some c) :
    (a, b) ∈ updateBranch a b bs := by
  induction bs with
  | nil => cases h
  | cons p rest ih =>
    obtain ⟨k, d⟩ := p
    by_cases hk : a = k
    · subst hk
      rw [updateBranch, if_pos rfl]
      exact List.mem_cons_self _ _
    · rw [updateBranch, if_neg hk]
      rw [lookupBranch, if_neg hk] at h
      exact List.mem_cons_of_mem _ (ih h)

theorem CNode_make_eq (sn1 sn2 : SN) (lev : Nat) :
    CNode_make sn1 sn2 lev =
      (if (sn1.hash >>> lev) % 64 = (sn2.hash >>> lev) % 64 then
        if lev + 6 < 64 then
          .cnode [((sn1.hash >>> lev) % 64,
            .inode (CNode_make sn1 sn2 (lev + 6)))]
        else .cnode [((sn1.hash >>> lev) % 64, .inode (.lnode [sn2, sn1]))]
      else if (sn1.hash >>> lev) % 64 < (sn2.hash >>> lev) % 64 then
        .cnode [((sn1.hash >>> lev) % 64, .snode sn1),
          ((sn2.hash >>> lev) % 64, .snode sn2)]
      else
        .cnode [((sn2.hash >>> lev) % 64, .snode sn2),
          ((sn1.hash >>> lev) % 64, .snode sn1)]) := by
  rw [CNode_make, dite_eq_ite]

theorem CNode_make_contains (sn1 sn2 : SN) :
    ∀ n lev, 64 - lev ≤ n →
      ∀ s, ContainsM (CNode_make sn1 sn2 lev) s → s = sn1 ∨ s = sn2 := by
  intro n
  induction n with
  | zero =>
    intro lev hn s hc
    have hlev : 64 ≤ lev := by omega
    rw [CNode_make_eq] at hc
    by_cases ha : (sn1.hash >>> lev) % 64 = (sn2.hash >>> lev) % 64
    · rw [if_pos ha, if_neg (by omega : ¬ lev + 6 < 64)] at hc
      cases hc with
      | cnodeMem hmem hb =>
        rcases List.mem_cons.mp hmem with heq | habs
        · have hb2 := (Prod.mk.inj heq).2
          rw [hb2] at hb
          cases hb with
          | inodeMem hm =>
            cases hm with
            | lnodeMem hs =>
              rcases List.mem_cons.mp hs with h1 | h1
              · exact Or.inr h1
              · rcases List.mem_cons.mp h1 with h2 | h2
                · exact Or.inl h2
                · cases h2
        · cases habs
    · rw [if_neg ha] at hc
      by_cases hlt : (sn1.hash >>> lev) % 64 < (sn2.hash >>> lev) % 64
      · rw [if_pos hlt] at hc
        cases hc with
        | cnodeMem hmem hb =>
          rcases List.mem_cons.mp hmem with heq | h1
          · have hb2 := (Prod.mk.inj heq).2
            rw [hb2] at hb
            cases hb
            exact Or.inl rfl
          · rcases List.mem_cons.mp h1 with heq | h2
            · have hb2 := (Prod.mk.inj heq).2
              rw [hb2] at hb
              cases hb
              exact Or.inr rfl
            · cases h2
      · rw [if_neg hlt] at hc
        cases hc with
        | cnodeMem hmem hb =>
          rcases List.mem_cons.mp hmem with heq | h1
          · have hb2 := (Prod.mk.inj heq).2
            rw [hb2] at hb
            cases hb
            exact Or.inr rfl
          · rcases List.mem_cons.mp h1 with heq | h2
            · have hb2 := (Prod.mk.inj heq).2
              rw [hb2] at hb
              cases hb
              exact Or.inl rfl
            · cases h2
  | succ m ih =>
    intro lev hn s hc
    rw [CNode_make_eq] at hc
    by_cases ha : (sn1.hash >>> lev) % 64 = (sn2.hash >>> lev) % 64
    · rw [if_pos ha] at hc
      by_cases hl : lev + 6 < 64
      · rw [if_pos hl] at hc
        cases hc with
        | cnodeMem hmem hb =>
          rcases List.mem_cons.mp hmem with heq | habs
          · have hb2 := (Prod.mk.inj heq).2
            rw [hb2] at hb
            cases hb with
            | inodeMem hm => exact ih (lev + 6) (by omega) s hm
          · cases habs
      · rw [if_neg hl] at hc
        cases hc with
        | cnodeMem hmem hb =>
          rcases List.mem_cons.mp hmem with heq | habs
          · have hb2 := (Prod.mk.inj heq).2
            rw [hb2] at hb
            cases hb with
            | inodeMem hm =>
              cases hm with
              | lnodeMem hs =>
                rcases List.mem_cons.mp hs with h1 | h1
                · exact Or.inr h1
                · rcases List.mem_cons.mp h1 with h2 | h2
                  · exact Or.inl h2
                  · cases h2
          · cases habs
    · rw [if_neg ha] at hc
      by_cases hlt : (sn1.hash >>> lev) % 64 < (sn2.hash >>> lev) % 64
      · rw [if_pos hlt] at hc
        cases hc with
        | cnodeMem hmem hb =>
          rcases List.mem_cons.mp hmem with heq | h1
          · have hb2 := (Prod.mk.inj heq).2
            rw [hb2] at hb
            cases hb
            exact Or.inl rfl
          · rcases List.mem_cons.mp h1 with heq | h2
            · have hb2 := (Prod.mk.inj heq).2
              rw [hb2] at hb
              cases hb
              exact Or.inr rfl
            · cases h2
      · rw [if_neg hlt] at hc
        cases hc with
        | cnodeMem hmem hb =>
          rcases List.mem_cons.mp hmem with heq | h1
          · have hb2 := (Prod.mk.inj heq).2
            rw [hb2] at hb
            cases hb
            exact Or.inr rfl
          · rcases List.mem_cons.mp h1 with heq | h2
            · have hb2 := (Prod.mk.inj heq).2
              rw [hb2] at hb
              cases hb
              exact Or.inl rfl
            · cases h2

theorem wf_cnode_single_inode (lev a : Nat) (m : MNode) (hm : WfM m (lev + 6))
    (hs : ∀ s, ContainsM m s → (s.hash >>> lev) % 64 = a) :
    WfM (.cnode [(a, .inode m)]) lev := by
  refine WfM.cnode (by simp) ?_ ?_
  · intro a0 b0 hmem s hb
    rcases List.mem_cons.mp hmem with heq | habs
    · obtain ⟨h1, h2⟩ := Prod.mk.inj heq
      rw [h2] at hb
      cases hb with
      | inodeMem hc => rw [h1]; exact hs s hc
    · cases habs
  · intro a0 b0 hmem
    rcases List.mem_cons.mp hmem with heq | habs
    · obtain ⟨h1, h2⟩ := Prod.mk.inj heq
      rw [h2]
      exact WfB.inode hm
    · cases habs

theorem wf_cnode_pair (lev a1 a2 : Nat) (s1 s2 : SN)
    (h1 : (s1.hash >>> lev) % 64 = a1) (h2 : (s2.hash >>> lev) % 64 = a2)
    (hne : a1 ≠ a2) :
    WfM (.cnode [(a1, .snode s1), (a2, .snode s2)]) lev := by
  refine WfM.cnode (by simp [hne]) ?_ ?_
  · intro a0 b0 hmem s hb
    rcases List.mem_cons.mp hmem with heq | hm1
    · obtain ⟨hx, hy⟩ := Prod.mk.inj heq
      rw [hy] at hb
      cases hb
      rw [hx]
      exact h1
    · rcases List.mem_cons.mp hm1 with heq | habs
      · obtain ⟨hx, hy⟩ := Prod.mk.inj heq
        rw [hy] at hb
        cases hb
        rw [hx]
        exact h2
      · cases habs
  · intro a0 b0 hmem
    rcases List.mem_cons.mp hmem with heq | hm1
    · rw [(Prod.mk.inj heq).2]
      exact WfB.snode
    · rcases List.mem_cons.mp hm1 with heq | habs
      · rw [(Prod.mk.inj heq).2]
        exact WfB.snode
      · cases habs

theorem CNode_make_wf (sn1 sn2 : SN) :
    ∀ n lev, 64 - lev ≤ n → WfM (CNode_make sn1 sn2 lev) lev := by
  intro n
  induction n with
  | zero =>
    intro lev hn
    rw [CNode_make_eq]
    by_cases ha : (sn1.hash >>> lev) % 64 = (sn2.hash >>> lev) % 64
    · rw [if_pos ha, if_neg (by omega : ¬ lev + 6 < 64)]
      refine wf_cnode_single_inode lev _ _ WfM.lnode ?_
      intro s hc
      cases hc with
      | lnodeMem hs =>
        rcases List.mem_cons.mp hs with h1 | h1
        · rw [h1, ha]
        · rcases List.mem_cons.mp h1 with h2 | h2
          · rw [h2]
          · cases h2
    · rw [if_neg ha]
      by_cases hlt : (sn1.hash >>> lev) % 64 < (sn2.hash >>> lev) % 64
      · rw [if_pos hlt]
        exact wf_cnode_pair lev _ _ sn1 sn2 rfl rfl ha
      · rw [if_neg hlt]
        exact wf_cnode_pair lev _ _ sn2 sn1 rfl rfl (fun h => ha h.symm)
  | succ m ih =>
    intro lev hn
    rw [CNode_make_eq]
    by_cases ha : (sn1.hash >>> lev) % 64 = (sn2.hash >>> lev) % 64
    · rw [if_pos ha]
      by_cases hl : lev + 6 < 64
      · rw [if_pos hl]
        refine wf_cnode_single_inode lev _ _ (ih (lev + 6) (by omega)) ?_
        intro s hc
        rcases CNode_make_contains sn1 sn2 64 (lev + 6) (by omega) s hc with
          h1 | h1
        · rw [h1]
        · rw [h1, ha]
      · rw [if_neg hl]
        refine wf_cnode_single_inode lev _ _ WfM.lnode ?_
        intro s hc
        cases hc with
        | lnodeMem hs =>
          rcases List.mem_cons.mp hs with h1 | h1
          · rw [h1, ha]
          · rcases List.mem_cons.mp h1 with h2 | h2
            · rw [h2]
            · cases h2
    · rw [if_neg ha]
      by_cases hlt : (sn1.hash >>> lev) % 64 < (sn2.hash >>> lev) % 64
      · rw [if_pos hlt]
        exact wf_cnode_pair lev _ _ sn1 sn2 rfl rfl ha
      · rw [if_neg hlt]
        exact wf_cnode_pair lev _ _ sn2 sn1 rfl rfl (fun h => ha h.symm)

theorem tombfree_cnode_single_inode (a : Nat) (m : MNode) (hm : TombFreeM m) :
    TombFreeM (.cnode [(a, .inode m)]) := by
  refine TombFreeM.cnode ?_
  intro a0 b0 hmem
  rcases List.mem_cons.mp hmem with heq | habs
  · rw [(Prod.mk.inj heq).2]
    exact TombFreeB.inode hm
  · cases habs

theorem tombfree_cnode_pair (a1 a2 : Nat) (s1 s2 : SN) :
    TombFreeM (.cnode [(a1, .snode s1), (a2, .snode s2)]) := by
  refine TombFreeM.cnode ?_
  intro a0 b0 hmem
  rcases List.mem_cons.mp hmem with heq | hm1
  · rw [(Prod.mk.inj heq).2]
    exact TombFreeB.snode
  · rcases List.mem_cons.mp hm1 with heq | habs
    · rw [(Prod.mk.inj heq).2]
      exact TombFreeB.snode
    · cases habs

theorem CNode_make_tombfree (sn1 sn2 : SN) :
    ∀ n lev, 64 - lev ≤ n → TombFreeM (CNode_make sn1 sn2 lev) := by
  intro n
  induction n with
  | zero =>
    intro lev hn
    rw [CNode_make_eq]
    by_cases ha : (sn1.hash >>> lev) % 64 = (sn2.hash >>> lev) % 64
    · rw [if_pos ha, if_neg (by omega : ¬ lev + 6 < 64)]
      exact tombfree_cnode_single_inode _ _ TombFreeM.lnode
    · rw [if_neg ha]
      by_cases hlt : (sn1.hash >>> lev) % 64 < (sn2.hash >>> lev) % 64
      · rw [if_pos hlt]
        exact tombfree_cnode_pair _ _ _ _
      · rw [if_neg hlt]
        exact tombfree_cnode_pair _ _ _ _
  | succ m ih =>
    intro lev hn
    rw [CNode_make_eq]
    by_cases ha : (sn1.hash >>> lev) % 64 = (sn2.hash >>> lev) % 64
    · rw [if_pos ha]
      by_cases hl : lev + 6 < 64
      · rw [if_pos hl]
        exact tombfree_cnode_single_inode _ _ (ih (lev + 6) (by omega))
      · rw [if_neg hl]
        exact tombfree_cnode_single_inode _ _ TombFreeM.lnode
    · rw [if_neg ha]
      by_cases hlt : (sn1.hash >>> lev) % 64 < (sn2.hash >>> lev) % 64
      · rw [if_pos hlt]
        exact tombfree_cnode_pair _ _ _ _
      · rw [if_neg hlt]
        exact tombfree_cnode_pair _ _ _ _

theorem CNode_make_contains_self (sn1 sn2 : SN) :
    ∀ n lev, 64 - lev ≤ n →
      ContainsM (CNode_make sn1 sn2 lev) sn1 ∧
      ContainsM (CNode_make sn1 sn2 lev) sn2 := by
  intro n
  induction n with
  | zero =>
    intro lev hn
    rw [CNode_make_eq]
    by_cases ha : (sn1.hash >>> lev) % 64 = (sn2.hash >>> lev) % 64
    · rw [if_pos ha, if_neg (by omega : ¬ lev + 6 < 64)]
      constructor
      · exact ContainsM.cnodeMem (List.mem_cons_self _ _)
          (ContainsB.inodeMem (ContainsM.lnodeMem (by simp)))
      · exact ContainsM.cnodeMem (List.mem_cons_self _ _)
          (ContainsB.inodeMem (ContainsM.lnodeMem (by simp)))
    · rw [if_neg ha]
      by_cases hlt : (sn1.hash >>> lev) % 64 < (sn2.hash >>> lev) % 64
      · rw [if_pos hlt]
        exact ⟨ContainsM.cnodeMem (List.mem_cons_self _ _) ContainsB.snodeSelf,
          ContainsM.cnodeMem (List.mem_cons_of_mem _ (List.mem_cons_self _ _)) ContainsB.snodeSelf⟩
      · rw [if_neg hlt]
        exact ⟨ContainsM.cnodeMem (List.mem_cons_of_mem _ (List.mem_cons_self _ _)) ContainsB.snodeSelf,
          ContainsM.cnodeMem (List.mem_cons_self _ _) ContainsB.snodeSelf⟩
  | succ m ih =>
    intro lev hn
    rw [CNode_make_eq]
    by_cases ha : (sn1.hash >>> lev) % 64 = (sn2.hash >>> lev) % 64
    · rw [if_pos ha]
      by_cases hl : lev + 6 < 64
      · rw [if_pos hl]
        obtain ⟨hc1, hc2⟩ := ih (lev + 6) (by omega)
        exact ⟨ContainsM.cnodeMem (List.mem_cons_self _ _)
            (ContainsB.inodeMem hc1),
          ContainsM.cnodeMem (List.mem_cons_self _ _)
            (ContainsB.inodeMem hc2)⟩
      · rw [if_neg hl]
        constructor
        · exact ContainsM.cnodeMem (List.mem_cons_self _ _)
            (ContainsB.inodeMem (ContainsM.lnodeMem (by simp)))
        · exact ContainsM.cnodeMem (List.mem_cons_self _ _)
            (ContainsB.inodeMem (ContainsM.lnodeMem (by simp)))
    · rw [if_neg ha]
      by_cases hlt : (sn1.hash >>> lev) % 64 < (sn2.hash >>> lev) % 64
      · rw [if_pos hlt]
        exact ⟨ContainsM.cnodeMem (List.mem_cons_self _ _) ContainsB.snodeSelf,
          ContainsM.cnodeMem (List.mem_cons_of_mem _ (List.mem_cons_self _ _)) ContainsB.snodeSelf⟩
      · rw [if_neg hlt]
        exact ⟨ContainsM.cnodeMem (List.mem_cons_of_mem _ (List.mem_cons_self _ _)) ContainsB.snodeSelf,
          ContainsM.cnodeMem (List.mem_cons_self _ _) ContainsB.snodeSelf⟩

theorem some4_inj {α β γ δ : Type} {a1 a2 : α} {b1 b2 : β} {c1 c2 : γ}
    {d1 d2 : δ}
    (h : (some (a1, b1, c1, d1) : Option (α × β × γ × δ)) =
      some (a2, b2, c2, d2)) :
    a1 = a2 ∧ b1 = b2 ∧ c1 = c2 ∧ d1 = d2 := by
  have h0 := Option.some.inj h
  have h1 := Prod.mk.inj h0
  have h2 := Prod.mk.inj h1.2
  have h3 := Prod.mk.inj h2.2
  exact ⟨h1.1, h2.1, h3.1, h3.2⟩

theorem some3_inj {α β γ : Type} {a1 a2 : α} {b1 b2 : β} {c1 c2 : γ}
    (h : (some (a1, b1, c1) : Option (α × β × γ)) = some (a2, b2, c2)) :
    a1 = a2 ∧ b1 = b2 ∧ c1 = c2 := by
  have h0 := Option.some.inj h
  have h1 := Prod.mk.inj h0
  have h2 := Prod.mk.inj h1.2
  exact ⟨h1.1, h2.1, h2.2⟩

theorem mem_replaceFirstView (v : List Nat) (nsn : SN) :
    ∀ sns x, x ∈ replaceFirstView v nsn sns → x = nsn ∨ x ∈ sns := by
  intro sns
  induction sns with
  | nil => intro x hx; cases hx
  | cons s rest ih =>
    intro x hx
    by_cases hs : s.view = v
    · rw [replaceFirstView, if_pos hs] at hx
      rcases List.mem_cons.mp hx with h1 | h1
      · exact Or.inl h1
      · exact Or.inr (List.mem_cons_of_mem _ h1)
    · rw [replaceFirstView, if_neg hs] at hx
      rcases List.mem_cons.mp hx with h1 | h1
      · exact Or.inr (h1 ▸ List.mem_cons_self _ _)
      · rcases ih x h1 with h2 | h2
        · exact Or.inl h2
        · exact Or.inr (List.mem_cons_of_mem _ h2)

theorem mem_LNode_inserted (ctx : MutCtx) (q : Query) (sns : List SN)
    (mem : Mem) (x : SN) (hx : x ∈ (LNode_inserted ctx q sns mem).1) :
    x = (SNode_make ctx q mem).1 ∨ x ∈ sns := by
  by_cases hany : sns.any (fun s => s.view = q.view)
  · have he : (LNode_inserted ctx q sns mem).1 =
        replaceFirstView q.view (SNode_make ctx q mem).1 sns := by
      simp only [LNode_inserted]
      rw [if_pos hany]
    rw [he] at hx
    exact mem_replaceFirstView q.view (SNode_make ctx q mem).1 sns x hx
  · have he : (LNode_inserted ctx q sns mem).1 =
        (SNode_make ctx q mem).1 :: sns := by
      simp only [LNode_inserted]
      rw [if_neg hany]
    rw [he] at hx
    exact List.mem_cons.mp hx

/-- C3: an emplace descent that reaches an equivalent SNode colored RED
does not touch that color and treats the node as absent: it allocates a
fresh SNode with identical hash and bytes, installs it over the RED
node's branch, and returns the new node; and when the observed color is
neither WHITE, GRAY nor RED, the WHITE-to-BLACK color CAS fails and the
existing node is returned with no state change at all (the CAS can only
succeed from WHITE). -/
theorem emplace_red_snode (fuel : Nat) (ctx : MutCtx)
    (bs : List (Nat × BNode)) (q : Query) (lev : Nat) (mem : Mem) (sn : SN)
    (hlook : lookupBranch ((q.hash >>> lev) % 64) bs = some (.snode sn))
    (hhash : sn.hash = q.hash) (hview : sn.view = q.view)
    (hW : validWHITE ctx.WHITE) (hid : sn.id < mem.next) :
    (mem.colors sn.id = RED →
      iinsert (fuel + 1) ctx (.cnode bs) q lev mem =
        some (.OK, some (SNode_make ctx q mem).1,
          .cnode (updateBranch ((q.hash >>> lev) % 64)
            (.snode (SNode_make ctx q mem).1) bs),
          (SNode_make ctx q mem).2) ∧
      (SNode_make ctx q mem).1.hash = sn.hash ∧
      (SNode_make ctx q mem).1.view = sn.view ∧
      (SNode_make ctx q mem).1.id ≠ sn.id ∧
      (SNode_make ctx q mem).2.colors sn.id = RED) ∧
    (mem.colors sn.id ≠ ctx.WHITE → mem.colors sn.id ≠ GRAY →
      mem.colors sn.id ≠ RED →
      iinsert (fuel + 1) ctx (.cnode bs) q lev mem =
        some (.OK, some sn, .cnode bs, mem)) := by
  have hstep := iinsert_step_snode fuel ctx bs q lev mem sn hlook
  constructor
  · intro hR
    have hnW : mem.colors sn.id ≠ ctx.WHITE := by
      rw [hR]
      rcases hW with h0 | h1
      · rw [h0]; decide
      · rw [h1]; decide
    have hnG : mem.colors sn.id ≠ GRAY := by
      rw [hR]; decide
    refine ⟨?_, ?_, ?_, ?_, ?_⟩
    · rw [hstep, if_pos ⟨hhash, hview⟩, if_neg hnW, if_neg hnG, if_pos hR]
    · show q.hash = sn.hash
      rw [hhash]
    · show q.view = sn.view
      rw [hview]
    · show mem.next ≠ sn.id
      omega
    · show (if sn.id = mem.next then ctx.ALLOC else mem.colors sn.id) = RED
      rw [if_neg (by omega), hR]
  · intro h1 h2 h3
    rw [hstep, if_pos ⟨hhash, hview⟩, if_neg h1, if_neg h2, if_neg h3]

theorem emplace_red_snode_witness :
    lookupBranch ((5 >>> 0) % 64) [(5, BNode.snode ⟨0, 5, [97]⟩)] =
      some (.snode ⟨0, 5, [97]⟩) ∧
    (0 : Nat) < 1 ∧
    iinsert 1 ⟨0, 0⟩ (.cnode [(5, BNode.snode ⟨0, 5, [97]⟩)]) ⟨[97], 5⟩ 0
        ⟨fun i => if i = 0 then 3 else 0, 1⟩ =
      some (.OK,
        some (SNode_make ⟨0, 0⟩ ⟨[97], 5⟩ ⟨fun i => if i = 0 then 3 else 0, 1⟩).1,
        .cnode (updateBranch ((5 >>> 0) % 64)
          (.snode (SNode_make ⟨0, 0⟩ ⟨[97], 5⟩
            ⟨fun i => if i = 0 then 3 else 0, 1⟩).1)
          [(5, BNode.snode ⟨0, 5, [97]⟩)]),
        (SNode_make ⟨0, 0⟩ ⟨[97], 5⟩ ⟨fun i => if i = 0 then 3 else 0, 1⟩).2) ∧
    (SNode_make ⟨0, 0⟩ ⟨[97], 5⟩
      ⟨fun i => if i = 0 then 3 else 0, 1⟩).2.colors 0 = RED :=
  ⟨rfl, by decide,
    ((emplace_red_snode 0 ⟨0, 0⟩ [(5, BNode.snode ⟨0, 5, [97]⟩)] ⟨[97], 5⟩ 0
      ⟨fun i => if i = 0 then 3 else 0, 1⟩ ⟨0, 5, [97]⟩ rfl rfl rfl
      (by decide) (by decide)).1 rfl).1,
    ((emplace_red_snode 0 ⟨0, 0⟩ [(5, BNode.snode ⟨0, 5, [97]⟩)] ⟨[97], 5⟩ 0
      ⟨fun i => if i = 0 then 3 else 0, 1⟩ ⟨0, 5, [97]⟩ rfl rfl rfl
      (by decide) (by decide)).1 rfl).2.2.2.2⟩

theorem SNode_make_hash (ctx : MutCtx) (q : Query) (mem : Mem) :
    (SNode_make ctx q mem).1.hash = q.hash := rfl

theorem SNode_make_view (ctx : MutCtx) (q : Query) (mem : Mem) :
    (SNode_make ctx q mem).1.view = q.view := rfl

/-- An emplace descent on a well-formed tomb-free subtrie succeeds with
OK, preserves well-formedness and tomb-freedom, only ever adds SNodes
whose hash is the query hash, and any returned SNode carries the query's
bytes and hash, is present in the result, and is neither RED nor GRAY
afterward. -/
theorem iinsert_post (ctx : MutCtx) (q : Query) (hW : validWHITE ctx.WHITE)
    (hA1 : ctx.ALLOC ≠ RED) (hA2 : ctx.ALLOC ≠ GRAY) :
    ∀ fuel m lev mem res v m2 mem2,
      WfM m lev → TombFreeM m →
      iinsert fuel ctx m q lev mem = some (res, v, m2, mem2) →
      res = .OK ∧ WfM m2 lev ∧ TombFreeM m2 ∧
      (∀ s, ContainsM m2 s → ContainsM m s ∨ s.hash = q.hash) ∧
      (∀ sn, v = some sn → sn.view = q.view ∧ sn.hash = q.hash ∧
        ContainsM m2 sn ∧ mem2.colors sn.id ≠ RED ∧
        mem2.colors sn.id ≠ GRAY) := by
  intro fuel
  induction fuel with
  | zero =>
    intro m lev mem res v m2 mem2 hwf htf hrun
    cases hrun
  | succ f ih =>
    intro m lev mem res v m2 mem2 hwf htf hrun
    cases m with
    | tnode s => cases htf
    | lnode sns =>
      rw [iinsert_step_lnode] at hrun
      obtain ⟨hres, hv, hm2, hmem2⟩ := some4_inj hrun
      subst hres
      subst hv
      subst hm2
      subst hmem2
      refine ⟨rfl, WfM.lnode, TombFreeM.lnode, ?_, ?_⟩
      · intro s hs
        cases hs with
        | lnodeMem hmem =>
          rcases mem_LNode_inserted ctx q sns mem s hmem with h1 | h1
          · exact Or.inr (by rw [h1]; exact SNode_make_hash ctx q mem)
          · exact Or.inl (ContainsM.lnodeMem h1)
      · intro sn hsn
        cases hsn
    | cnode bs =>
      cases hwf with
      | cnode hnd hslot hwfb =>
      cases htf with
      | cnode htfb =>
      cases hlook : lookupBranch ((q.hash >>> lev) % 64) bs with
      | none =>
        rw [iinsert_step_missing f ctx bs q lev mem hlook] at hrun
        obtain ⟨hres, hv, hm2, hmem2⟩ := some4_inj hrun
        subst hres
        subst hv
        subst hm2
        subst hmem2
        refine ⟨rfl, ?_, ?_, ?_, ?_⟩
        · refine WfM.cnode
            (insertBranch_keys_nodup _ _ bs hnd (lookupBranch_none _ _ hlook))
            ?_ ?_
          · intro a0 b0 hmem s hb
            rcases (mem_insertBranch _ _ bs (a0, b0)).mp hmem with h1 | h1
            · obtain ⟨hx, hy⟩ := Prod.mk.inj h1
              rw [hy] at hb
              cases hb
              rw [hx, SNode_make_hash]
            · exact hslot a0 b0 h1 s hb
          · intro a0 b0 hmem
            rcases (mem_insertBranch _ _ bs (a0, b0)).mp hmem with h1 | h1
            · rw [(Prod.mk.inj h1).2]
              exact WfB.snode
            · exact hwfb a0 b0 h1
        · refine TombFreeM.cnode ?_
          intro a0 b0 hmem
          rcases (mem_insertBranch _ _ bs (a0, b0)).mp hmem with h1 | h1
          · rw [(Prod.mk.inj h1).2]
            exact TombFreeB.snode
          · exact htfb a0 b0 h1
        · intro s hs
          cases hs with
          | cnodeMem hmem hb =>
            rcases (mem_insertBranch _ _ bs _).mp hmem with h1 | h1
            · rw [(Prod.mk.inj h1).2] at hb
              cases hb
              exact Or.inr rfl
            · exact Or.inl (ContainsM.cnodeMem h1 hb)
        · intro sn hsn
          have hsn2 := Option.some.inj hsn
          rw [← hsn2]
          refine ⟨rfl, rfl, ?_, ?_, ?_⟩
          · exact ContainsM.cnodeMem
              ((mem_insertBranch _ _ bs _).mpr (Or.inl rfl))
              ContainsB.snodeSelf
          · show (if mem.next = mem.next then ctx.ALLOC else mem.colors mem.next)
              ≠ RED
            rw [if_pos rfl]
            exact hA1
          · show (if mem.next = mem.next then ctx.ALLOC else mem.colors mem.next)
              ≠ GRAY
            rw [if_pos rfl]
            exact hA2
      | some b =>
        cases b with
        | snode sn =>
          rw [iinsert_step_snode f ctx bs q lev mem sn hlook] at hrun
          by_cases heqv : sn.hash = q.hash ∧ sn.view = q.view
          · rw [if_pos heqv] at hrun
            by_cases hw : mem.colors sn.id = ctx.WHITE
            · rw [if_pos hw] at hrun
              obtain ⟨hres, hv, hm2, hmem2⟩ := some4_inj hrun
              subst hres
              subst hv
              subst hm2
              subst hmem2
              refine ⟨rfl, WfM.cnode hnd hslot hwfb, TombFreeM.cnode htfb,
                fun s hs => Or.inl hs, ?_⟩
              intro sn2 hsn
              have hsn2 := Option.some.inj hsn
              rw [← hsn2]
              refine ⟨heqv.2, heqv.1,
                ContainsM.cnodeMem (lookupBranch_mem _ bs _ hlook)
                  ContainsB.snodeSelf, ?_, ?_⟩
              · show (if sn.id = sn.id then ctx.WHITE ^^^ 1 else mem.colors sn.id)
                  ≠ RED
                rw [if_pos rfl]
                rcases hW with h0 | h1
                · rw [h0]; decide
                · rw [h1]; decide
              · show (if sn.id = sn.id then ctx.WHITE ^^^ 1 else mem.colors sn.id)
                  ≠ GRAY
                rw [if_pos rfl]
                rcases hW with h0 | h1
                · rw [h0]; decide
                · rw [h1]; decide
            · rw [if_neg hw] at hrun
              by_cases hg : mem.colors sn.id = GRAY
              · rw [if_pos hg] at hrun
                cases hrun
              · rw [if_neg hg] at hrun
                by_cases hr : mem.colors sn.id = RED
                · rw [if_pos hr] at hrun
                  obtain ⟨hres, hv, hm2, hmem2⟩ := some4_inj hrun
                  subst hres
                  subst hv
                  subst hm2
                  subst hmem2
                  refine ⟨rfl, ?_, ?_, ?_, ?_⟩
                  · refine WfM.cnode (by rw [map_fst_updateBranch]; exact hnd)
                      ?_ ?_
                    · intro a0 b0 hmem s hb
                      rcases mem_updateBranch _ _ bs (a0, b0) hmem with h1 | h1
                      · obtain ⟨hx, hy⟩ := Prod.mk.inj h1
                        rw [hy] at hb
                        cases hb
                        rw [hx, SNode_make_hash]
                      · exact hslot a0 b0 h1 s hb
                    · intro a0 b0 hmem
                      rcases mem_updateBranch _ _ bs (a0, b0) hmem with h1 | h1
                      · rw [(Prod.mk.inj h1).2]
                        exact WfB.snode
                      · exact hwfb a0 b0 h1
                  · refine TombFreeM.cnode ?_
                    intro a0 b0 hmem
                    rcases mem_updateBranch _ _ bs (a0, b0) hmem with h1 | h1
                    · rw [(Prod.mk.inj h1).2]
                      exact TombFreeB.snode
                    · exact htfb a0 b0 h1
                  · intro s hs
                    cases hs with
                    | cnodeMem hmem hb =>
                      rcases mem_updateBranch _ _ bs _ hmem with h1 | h1
                      · rw [(Prod.mk.inj h1).2] at hb
                        cases hb
                        exact Or.inr rfl
                      · exact Or.inl (ContainsM.cnodeMem h1 hb)
                  · intro sn2 hsn
                    have hsn2 := Option.some.inj hsn
                    rw [← hsn2]
                    refine ⟨rfl, rfl, ?_, ?_, ?_⟩
                    · exact ContainsM.cnodeMem
                        (mem_updateBranch_self _ _ _ bs hlook)
                        ContainsB.snodeSelf
                    · show (if mem.next = mem.next then ctx.ALLOC
                          else mem.colors mem.next) ≠ RED
                      rw [if_pos rfl]
                      exact hA1
                    · show (if mem.next = mem.next then ctx.ALLOC
                          else mem.colors mem.next) ≠ GRAY
                      rw [if_pos rfl]
                      exact hA2
                · rw [if_neg hr] at hrun
                  obtain ⟨hres, hv, hm2, hmem2⟩ := some4_inj hrun
                  subst hres
                  subst hv
                  subst hm2
                  subst hmem2
                  refine ⟨rfl, WfM.cnode hnd hslot hwfb, TombFreeM.cnode htfb,
                    fun s hs => Or.inl hs, ?_⟩
                  intro sn2 hsn
                  have hsn2 := Option.some.inj hsn
                  rw [← hsn2]
                  exact ⟨heqv.2, heqv.1,
                    ContainsM.cnodeMem (lookupBranch_mem _ bs _ hlook)
                      ContainsB.snodeSelf, hr, hg⟩
          · rw [if_neg heqv] at hrun
            obtain ⟨hres, hv, hm2, hmem2⟩ := some4_inj hrun
            subst hres
            subst hv
            subst hm2
            subst hmem2
            have hsnslot : (sn.hash >>> lev) % 64 = (q.hash >>> lev) % 64 :=
              hslot _ _ (lookupBranch_mem _ bs _ hlook) sn ContainsB.snodeSelf
            refine ⟨rfl, ?_, ?_, ?_, ?_⟩
            · refine WfM.cnode (by rw [map_fst_updateBranch]; exact hnd) ?_ ?_
              · intro a0 b0 hmem s hb
                rcases mem_updateBranch _ _ bs (a0, b0) hmem with h1 | h1
                · obtain ⟨hx, hy⟩ := Prod.mk.inj h1
                  rw [hy] at hb
                  cases hb with
                  | inodeMem hc =>
                    rcases CNode_make_contains sn (SNode_make ctx q mem).1 64
                        (lev + 6) (by omega) s hc with h2 | h2
                    · rw [h2, hx]
                      exact hsnslot
                    · rw [h2, hx, SNode_make_hash]
                · exact hslot a0 b0 h1 s hb
              · intro a0 b0 hmem
                rcases mem_updateBranch _ _ bs (a0, b0) hmem with h1 | h1
                · rw [(Prod.mk.inj h1).2]
                  exact WfB.inode
                    (CNode_make_wf sn (SNode_make ctx q mem).1 64 (lev + 6)
                      (by omega))
                · exact hwfb a0 b0 h1
            · refine TombFreeM.cnode ?_
              intro a0 b0 hmem
              rcases mem_updateBranch _ _ bs (a0, b0) hmem with h1 | h1
              · rw [(Prod.mk.inj h1).2]
                exact TombFreeB.inode
                  (CNode_make_tombfree sn (SNode_make ctx q mem).1 64 (lev + 6)
                    (by omega))
              · exact htfb a0 b0 h1
            · intro s hs
              cases hs with
              | cnodeMem hmem hb =>
                rcases mem_updateBranch _ _ bs _ hmem with h1 | h1
                · rw [(Prod.mk.inj h1).2] at hb
                  cases hb with
                  | inodeMem hc =>
                    rcases CNode_make_contains sn (SNode_make ctx q mem).1 64
                        (lev + 6) (by omega) s hc with h2 | h2
                    · exact Or.inl (h2 ▸ ContainsM.cnodeMem
                        (lookupBranch_mem _ bs _ hlook) ContainsB.snodeSelf)
                    · exact Or.inr (by rw [h2]; exact SNode_make_hash ctx q mem)
                · exact Or.inl (ContainsM.cnodeMem h1 hb)
            · intro sn2 hsn
              have hsn2 := Option.some.inj hsn
              rw [← hsn2]
              refine ⟨rfl, rfl, ?_, ?_, ?_⟩
              · exact ContainsM.cnodeMem (mem_updateBranch_self _ _ _ bs hlook)
                  (ContainsB.inodeMem
                    (CNode_make_contains_self sn (SNode_make ctx q mem).1 64
                      (lev + 6) (by omega)).2)
              · show (if mem.next = mem.next then ctx.ALLOC
                    else mem.colors mem.next) ≠ RED
                rw [if_pos rfl]
                exact hA1
              · show (if mem.next = mem.next then ctx.ALLOC
                    else mem.colors mem.next) ≠ GRAY
                rw [if_pos rfl]
                exact hA2
        | inode m2x =>
          by_cases ht : ∃ s, m2x = MNode.tnode s
          · obtain ⟨s, hs⟩ := ht
            subst hs
            have htb := htfb _ _ (lookupBranch_mem _ bs _ hlook)
            cases htb with
            | inode htm => cases htm
          · have h2 : ∀ s, m2x ≠ MNode.tnode s := fun s hs => ht ⟨s, hs⟩
            have hwfc : WfM m2x (lev + 6) := by
              have hb := hwfb _ _ (lookupBranch_mem _ bs _ hlook)
              cases hb with
              | inode hm => exact hm
            have htfc : TombFreeM m2x := by
              have hb := htfb _ _ (lookupBranch_mem _ bs _ hlook)
              cases hb with
              | inode hm => exact hm
            cases hrec : iinsert f ctx m2x q (lev + 6) mem with
            | none =>
              rw [iinsert_step_inode_none f ctx bs q lev mem m2x hlook h2 hrec]
                at hrun
              cases hrun
            | some r4 =>
              obtain ⟨res2, v2, m2b, mem2b⟩ := r4
              rw [iinsert_step_inode_some f ctx bs q lev mem m2x hlook h2 res2
                v2 m2b mem2b hrec] at hrun
              obtain ⟨hres, hv, hm2, hmem2⟩ := some4_inj hrun
              subst hres
              subst hv
              subst hm2
              subst hmem2
              obtain ⟨hres2, hwf2, htf2, hcont2, hv2⟩ :=
                ih m2x (lev + 6) mem res2 v2 m2b mem2b hwfc htfc hrec
              refine ⟨hres2, ?_, ?_, ?_, ?_⟩
              · refine WfM.cnode (by rw [map_fst_updateBranch]; exact hnd) ?_ ?_
                · intro a0 b0 hmem s hb
                  rcases mem_updateBranch _ _ bs (a0, b0) hmem with h1 | h1
                  · obtain ⟨hx, hy⟩ := Prod.mk.inj h1
                    rw [hy] at hb
                    cases hb with
                    | inodeMem hc =>
                      rcases hcont2 s hc with h3 | h3
                      · rw [hx]
                        exact hslot _ _ (lookupBranch_mem _ bs _ hlook) s
                          (ContainsB.inodeMem h3)
                      · rw [h3, hx]
                  · exact hslot a0 b0 h1 s hb
                · intro a0 b0 hmem
                  rcases mem_updateBranch _ _ bs (a0, b0) hmem with h1 | h1
                  · rw [(Prod.mk.inj h1).2]
                    exact WfB.inode hwf2
                  · exact hwfb a0 b0 h1
              · refine TombFreeM.cnode ?_
                intro a0 b0 hmem
                rcases mem_updateBranch _ _ bs (a0, b0) hmem with h1 | h1
                · rw [(Prod.mk.inj h1).2]
                  exact TombFreeB.inode htf2
                · exact htfb a0 b0 h1
              · intro s hs
                cases hs with
                | cnodeMem hmem hb =>
                  rcases mem_updateBranch _ _ bs _ hmem with h1 | h1
                  · rw [(Prod.mk.inj h1).2] at hb
                    cases hb with
                    | inodeMem hc =>
                      rcases hcont2 s hc with h3 | h3
                      · exact Or.inl (ContainsM.cnodeMem
                          (lookupBranch_mem _ bs _ hlook)
                          (ContainsB.inodeMem h3))
                      · exact Or.inr h3
                  · exact Or.inl (ContainsM.cnodeMem h1 hb)
              · intro sn2 hsn
                obtain ⟨hvv, hvh, hvc, hvr, hvg⟩ := hv2 sn2 hsn
                exact ⟨hvv, hvh,
                  ContainsM.cnodeMem (mem_updateBranch_self _ _ _ bs hlook)
                    (ContainsB.inodeMem hvc), hvr, hvg⟩

/-- An emplace descent over a well-formed tomb-free subtrie that already
contains an equivalent SNode whose color is neither RED nor GRAY returns
OK and either null or that very node: it never allocates a competing
SNode for the same bytes. -/
theorem iinsert_finds (ctx : MutCtx) (q : Query) (sn1 : SN)
    (hview : sn1.view = q.view) (hhash : sn1.hash = q.hash) :
    ∀ fuel m lev mem res v m2 mem2,
      WfM m lev → TombFreeM m → ContainsM m sn1 →
      mem.colors sn1.id ≠ RED → mem.colors sn1.id ≠ GRAY →
      iinsert fuel ctx m q lev mem = some (res, v, m2, mem2) →
      res = .OK ∧ (v = none ∨ v = some sn1) := by
  intro fuel
  induction fuel with
  | zero =>
    intro m lev mem res v m2 mem2 hwf htf hcon hcR hcG hrun
    cases hrun
  | succ f ih =>
    intro m lev mem res v m2 mem2 hwf htf hcon hcR hcG hrun
    cases m with
    | tnode s => cases htf
    | lnode sns =>
      rw [iinsert_step_lnode] at hrun
      obtain ⟨hres, hv, hm2, hmem2⟩ := some4_inj hrun
      exact ⟨hres.symm, Or.inl hv.symm⟩
    | cnode bs =>
      cases hwf with
      | cnode hnd hslot hwfb =>
      cases htf with
      | cnode htfb =>
      cases hcon with
      | cnodeMem hmem hb =>
      rename_i a0 b
      have ha0 : (q.hash >>> lev) % 64 = a0 := by
        rw [← hhash]
        exact hslot a0 b hmem sn1 hb
      have hlook : lookupBranch ((q.hash >>> lev) % 64) bs = some b := by
        rw [ha0]
        exact mem_lookupBranch a0 bs b hnd hmem
      cases b with
      | snode sn2 =>
        cases hb
        rw [iinsert_step_snode f ctx bs q lev mem sn1 hlook] at hrun
        rw [if_pos ⟨hhash, hview⟩] at hrun
        by_cases hw : mem.colors sn1.id = ctx.WHITE
        · rw [if_pos hw] at hrun
          obtain ⟨hres, hv, hm2, hmem2⟩ := some4_inj hrun
          exact ⟨hres.symm, Or.inr hv.symm⟩
        · rw [if_neg hw, if_neg hcG, if_neg hcR] at hrun
          obtain ⟨hres, hv, hm2, hmem2⟩ := some4_inj hrun
          exact ⟨hres.symm, Or.inr hv.symm⟩
      | inode m2x =>
        have hcm : ContainsM m2x sn1 := by
          cases hb with
          | inodeMem hc => exact hc
        have htfc : TombFreeM m2x := by
          have hb2 := htfb a0 _ hmem
          cases hb2 with
          | inode hm => exact hm
        have hwfc : WfM m2x (lev + 6) := by
          have hb2 := hwfb a0 _ hmem
          cases hb2 with
          | inode hm => exact hm
        have h2 : ∀ s, m2x ≠ MNode.tnode s := by
          intro s hs
          rw [hs] at htfc
          cases htfc
        cases hrec : iinsert f ctx m2x q (lev + 6) mem with
        | none =>
          rw [iinsert_step_inode_none f ctx bs q lev mem m2x hlook h2 hrec]
            at hrun
          cases hrun
        | some r4 =>
          obtain ⟨res2, v2, m2b, mem2b⟩ := r4
          rw [iinsert_step_inode_some f ctx bs q lev mem m2x hlook h2 res2 v2
            m2b mem2b hrec] at hrun
          obtain ⟨hres, hv, hm2, hmem2⟩ := some4_inj hrun
          obtain ⟨hres2, hv2⟩ :=
            ih m2x (lev + 6) mem res2 v2 m2b mem2b hwfc htfc hcm hcR hcG hrec
          subst hres
          subst hv
          exact ⟨hres2, hv2⟩

theorem Ctrie_emplace_step_none (f : Nat) (ctx : MutCtx) (m : MNode)
    (q : Query) (mem : Mem) (hi : iinsert (f + 1) ctx m q 0 mem = none) :
    Ctrie_emplace (f + 1) ctx m q mem = none := by
  simp only [Ctrie_emplace]
  rw [hi]

theorem Ctrie_emplace_step_ok_some (f : Nat) (ctx : MutCtx) (m : MNode)
    (q : Query) (mem : Mem) (sn : SN) (m2 : MNode) (mem2 : Mem)
    (hi : iinsert (f + 1) ctx m q 0 mem = some (.OK, some sn, m2, mem2)) :
    Ctrie_emplace (f + 1) ctx m q mem = some (sn, m2, mem2) := by
  simp only [Ctrie_emplace]
  rw [hi]

theorem Ctrie_emplace_step_ok_none (f : Nat) (ctx : MutCtx) (m : MNode)
    (q : Query) (mem : Mem) (m2 : MNode) (mem2 : Mem)
    (hi : iinsert (f + 1) ctx m q 0 mem = some (.OK, none, m2, mem2)) :
    Ctrie_emplace (f + 1) ctx m q mem = none := by
  simp only [Ctrie_emplace]
  rw [hi]

/-- A successful top-level emplace on a well-formed tomb-free trie
returns an SNode with the query's bytes and hash, interned in the
resulting trie, not RED or GRAY; the result is again well-formed and
tomb-free. -/
theorem Ctrie_emplace_post (ctx : MutCtx) (q : Query)
    (hW : validWHITE ctx.WHITE) (hA1 : ctx.ALLOC ≠ RED) (hA2 : ctx.ALLOC ≠ GRAY)
    (fuel : Nat) (m : MNode) (mem : Mem) (sn : SN) (m2 : MNode) (mem2 : Mem)
    (hwf : WfM m 0) (htf : TombFreeM m)
    (h : Ctrie_emplace fuel ctx m q mem = some (sn, m2, mem2)) :
    sn.view = q.view ∧ sn.hash = q.hash ∧ ContainsM m2 sn ∧
    mem2.colors sn.id ≠ RED ∧ mem2.colors sn.id ≠ GRAY ∧
    WfM m2 0 ∧ TombFreeM m2 := by
  cases fuel with
  | zero => cases h
  | succ f =>
    cases hi : iinsert (f + 1) ctx m q 0 mem with
    | none =>
      rw [Ctrie_emplace_step_none f ctx m q mem hi] at h
      exact Option.noConfusion h
    | some r4 =>
      obtain ⟨res, v, m2x, mem2x⟩ := r4
      obtain ⟨hres, hwf2, htf2, hcont2, hv2⟩ :=
        iinsert_post ctx q hW hA1 hA2 (f + 1) m 0 mem res v m2x mem2x hwf htf
          hi
      subst hres
      cases v with
      | none =>
        rw [Ctrie_emplace_step_ok_none f ctx m q mem m2x mem2x hi] at h
        exact Option.noConfusion h
      | some sn0 =>
        rw [Ctrie_emplace_step_ok_some f ctx m q mem sn0 m2x mem2x hi] at h
        obtain ⟨hx, hy, hz⟩ := some3_inj h
        subst hx
        subst hy
        subst hz
        obtain ⟨hvv, hvh, hvc, hvr, hvg⟩ := hv2 _ rfl
        exact ⟨hvv, hvh, hvc, hvr, hvg, hwf2, htf2⟩

/-- A successful top-level emplace on a well-formed tomb-free trie that
already contains an equivalent, non-RED, non-GRAY SNode returns exactly
that node. -/
theorem Ctrie_emplace_finds (ctx : MutCtx) (q : Query) (sn1 : SN)
    (hview : sn1.view = q.view) (hhash : sn1.hash = q.hash)
    (fuel : Nat) (m : MNode) (mem : Mem) (sn2 : SN) (m2 : MNode) (mem2 : Mem)
    (hwf : WfM m 0) (htf : TombFreeM m) (hcon : ContainsM m sn1)
    (hcR : mem.colors sn1.id ≠ RED) (hcG : mem.colors sn1.id ≠ GRAY)
    (h : Ctrie_emplace fuel ctx m q mem = some (sn2, m2, mem2)) :
    sn2 = sn1 := by
  cases fuel with
  | zero => cases h
  | succ f =>
    cases hi : iinsert (f + 1) ctx m q 0 mem with
    | none =>
      rw [Ctrie_emplace_step_none f ctx m q mem hi] at h
      exact Option.noConfusion h
    | some r4 =>
      obtain ⟨res, v, m2x, mem2x⟩ := r4
      obtain ⟨hres, hv⟩ := iinsert_finds ctx q sn1 hview hhash (f + 1) m 0 mem
        res v m2x mem2x hwf htf hcon hcR hcG hi
      subst hres
      rcases hv with hv | hv
      · subst hv
        rw [Ctrie_emplace_step_ok_none f ctx m q mem m2x mem2x hi] at h
        exact Option.noConfusion h
      · subst hv
        rw [Ctrie_emplace_step_ok_some f ctx m q mem sn1 m2x mem2x hi] at h
        exact (some3_inj h).1.symm

/-- C2: on a well-formed, tomb-free intern trie, two successful emplace
calls with the same byte query by a single mutator return the same SNode
pointer: the second call finds the node interned by the first (whose
color is then neither RED nor GRAY) instead of allocating a new one. -/
theorem emplace_same_bytes_pointer_equal (ctx : MutCtx) (q : Query)
    (hW : validWHITE ctx.WHITE) (hA1 : ctx.ALLOC ≠ RED) (hA2 : ctx.ALLOC ≠ GRAY)
    (fuel1 fuel2 : Nat) (m : MNode) (mem : Mem)
    (sn1 : SN) (m1 : MNode) (mem1 : Mem) (sn2 : SN) (m2 : MNode) (mem2 : Mem)
    (hwf : WfM m 0) (htf : TombFreeM m)
    (h1 : Ctrie_emplace fuel1 ctx m q mem = some (sn1, m1, mem1))
    (h2 : Ctrie_emplace fuel2 ctx m1 q mem1 = some (sn2, m2, mem2)) :
    sn2 = sn1 := by
  obtain ⟨hvv, hvh, hvc, hvr, hvg, hwf1, htf1⟩ :=
    Ctrie_emplace_post ctx q hW hA1 hA2 fuel1 m mem sn1 m1 mem1 hwf htf h1
  exact Ctrie_emplace_finds ctx q sn1 hvv hvh fuel2 m1 mem1 sn2 m2 mem2 hwf1
    htf1 hvc hvr hvg h2

theorem emplace_same_bytes_pointer_equal_witness :
    validWHITE (MutCtx.mk 0 0).WHITE ∧
    (MutCtx.mk 0 0).ALLOC ≠ RED ∧ (MutCtx.mk 0 0).ALLOC ≠ GRAY ∧
    Ctrie_emplace 1 ⟨0, 0⟩ (.cnode []) ⟨[97], 5⟩ ⟨fun _ => 0, 100⟩ =
      some (⟨100, 5, [97]⟩, .cnode [(5, .snode ⟨100, 5, [97]⟩)],
        ⟨fun i => if i = 100 then 0 else 0, 101⟩) ∧
    Ctrie_emplace 1 ⟨0, 0⟩ (.cnode [(5, .snode ⟨100, 5, [97]⟩)]) ⟨[97], 5⟩
        ⟨fun i => if i = 100 then 0 else 0, 101⟩ =
      some (⟨100, 5, [97]⟩, .cnode [(5, .snode ⟨100, 5, [97]⟩)],
        ⟨fun i => if i = 100 then 1 else if i = 100 then 0 else 0, 101⟩) ∧
    (⟨100, 5, [97]⟩ : SN) = ⟨100, 5, [97]⟩ :=
  ⟨by decide, by decide, by decide, rfl, rfl,
    emplace_same_bytes_pointer_equal ⟨0, 0⟩ ⟨[97], 5⟩ (by decide) (by decide)
      (by decide) 1 1 (.cnode []) ⟨fun _ => 0, 100⟩
      ⟨100, 5, [97]⟩ (.cnode [(5, .snode ⟨100, 5, [97]⟩)])
      ⟨fun i => if i = 100 then 0 else 0, 101⟩
      ⟨100, 5, [97]⟩ (.cnode [(5, .snode ⟨100, 5, [97]⟩)])
      ⟨fun i => if i = 100 then 1 else if i = 100 then 0 else 0, 101⟩
      (WfM.cnode (by simp) (fun a b h => absurd h (List.not_mem_nil _))
        (fun a b h => absurd h (List.not_mem_nil _)))
      (TombFreeM.cnode (fun a b h => absurd h (List.not_mem_nil _)))
      rfl rfl⟩

theorem mem_updateBranch_strong (a : Nat) (b : BNode)
    (bs : List (Nat × BNode)) (hnd : (bs.map Prod.fst).Nodup)
    (x : Nat × BNode) (h : x ∈ updateBranch a b bs) :
    x = (a, b) ∨ (x ∈ bs ∧ x.1 ≠ a) := by
  induction bs with
  | nil => cases h
  | cons p rest ih =>
    obtain ⟨k, c⟩ := p
    simp only [List.map_cons, List.nodup_cons] at hnd
    by_cases hk : a = k
    · subst hk
      rw [updateBranch, if_pos rfl] at h
      rcases List.mem_cons.mp h with h1 | h1
      · exact Or.inl h1
      · refine Or.inr ⟨List.mem_cons_of_mem _ h1, ?_⟩
        intro hx
        exact hnd.1 (List.mem_map.mpr ⟨x, h1, hx⟩)
    · rw [updateBranch, if_neg hk] at h
      rcases List.mem_cons.mp h with h1 | h1
      · refine Or.inr ⟨h1 ▸ List.mem_cons_self _ _, ?_⟩
        rw [h1]
        exact fun hx => hk hx.symm
      · rcases ih hnd.2 h1 with h2 | h2
        · exact Or.inl h2
        · exact Or.inr ⟨List.mem_cons_of_mem _ h2.1, h2.2⟩

theorem mem_removeBranch_strong (a : Nat) (bs : List (Nat × BNode))
    (hnd : (bs.map Prod.fst).Nodup) (x : Nat × BNode)
    (h : x ∈ removeBranch a bs) : x ∈ bs ∧ x.1 ≠ a := by
  induction bs with
  | nil => cases h
  | cons p rest ih =>
    obtain ⟨k, c⟩ := p
    simp only [List.map_cons, List.nodup_cons] at hnd
    by_cases hk : a = k
    · subst hk
      rw [removeBranch, if_pos rfl] at h
      refine ⟨List.mem_cons_of_mem _ h, ?_⟩
      intro hx
      exact hnd.1 (List.mem_map.mpr ⟨x, h, hx⟩)
    · rw [removeBranch, if_neg hk] at h
      rcases List.mem_cons.mp h with h1 | h1
      · refine ⟨h1 ▸ List.mem_cons_self _ _, ?_⟩
        rw [h1]
        exact fun hx => hk hx.symm
      · obtain ⟨h2, h3⟩ := ih hnd.2 h1
        exact ⟨List.mem_cons_of_mem _ h2, h3⟩

theorem LNode_removed_none (k : SN) :
    ∀ sns, (LNode_removed k sns).2 = none → k ∉ sns := by
  intro sns
  induction sns with
  | nil => intro _ h; cases h
  | cons s rest ih =>
    intro hv hk
    by_cases hs : s = k
    · rw [LNode_removed, if_pos hs] at hv
      cases hv
    · rw [LNode_removed, if_neg hs] at hv
      rcases List.mem_cons.mp hk with h1 | h1
      · exact hs h1.symm
      · cases hrec : LNode_removed k rest with
        | mk nr v2 =>
          cases v2 with
          | none => exact ih (by rw [hrec]) h1
          | some x =>
            rw [hrec] at hv
            cases hv

theorem LNode_removed_not_mem (k : SN) :
    ∀ sns, sns.Nodup → k ∉ (LNode_removed k sns).1 := by
  intro sns
  induction sns with
  | nil => intro _ h; cases h
  | cons s rest ih =>
    intro hnd hk
    simp only [List.nodup_cons] at hnd
    by_cases hs : s = k
    · rw [LNode_removed, if_pos hs] at hk
      exact hnd.1 (hs ▸ hk)
    · rw [LNode_removed, if_neg hs] at hk
      cases hrec : LNode_removed k rest with
      | mk nr v2 =>
        cases v2 with
        | none =>
          rw [hrec] at hk
          rcases List.mem_cons.mp hk with h1 | h1
          · exact hs h1.symm
          · exact LNode_removed_none k rest (by rw [hrec]) h1
        | some x =>
          rw [hrec] at hk
          rcases List.mem_cons.mp hk with h1 | h1
          · exact hs h1.symm
          · exact ih hnd.2 (by rw [hrec]; exact h1)

theorem toContracted_contains (bs : List (Nat × BNode)) (lev : Nat)
    (m3 : MNode) (h : toContracted bs lev = some m3) (s : SN)
    (hc : ContainsM m3 s) : ∃ a b, (a, b) ∈ bs ∧ ContainsB b s := by
  by_cases hl : lev = 0 ∨ 1 < bs.length
  · rw [toContracted.eq_def, if_pos hl] at h
    obtain rfl := Option.some.inj h
    cases hc with
    | cnodeMem hmem hb => exact ⟨_, _, hmem, hb⟩
  · rw [toContracted.eq_def, if_neg hl] at h
    cases bs with
    | nil => cases h
    | cons p rest =>
      obtain ⟨a0, b0⟩ := p
      cases b0 with
      | snode s0 =>
        obtain rfl := Option.some.inj h
        cases hc
        exact ⟨a0, _, List.mem_cons_self _ _, ContainsB.snodeSelf⟩
      | inode m0 =>
        obtain rfl := Option.some.inj h
        cases hc with
        | cnodeMem hmem hb => exact ⟨_, _, hmem, hb⟩

theorem contains_cnode_lookup (bs : List (Nat × BNode)) (k : SN) (lev : Nat)
    (hnd : (bs.map Prod.fst).Nodup)
    (hslot : ∀ a b, (a, b) ∈ bs → ∀ s, ContainsB b s →
      (s.hash >>> lev) % 64 = a)
    (hc : ContainsM (.cnode bs) k) :
    ∃ b, lookupBranch ((k.hash >>> lev) % 64) bs = some b ∧ ContainsB b k := by
  cases hc with
  | cnodeMem hmem hb =>
    rename_i a0 b
    have ha := hslot a0 b hmem k hb
    refine ⟨b, ?_, hb⟩
    rw [ha]
    exact mem_lookupBranch a0 bs b hnd hmem

theorem iremove_step_lnode_nil (f : Nat) (sns : List SN) (k : SN) (lev : Nat)
    (v : Option SN) (h : LNode_removed k sns = ([], v)) :
    iremove (f + 1) (.lnode sns) k lev = none := by
  simp only [iremove]
  rw [h]

theorem iremove_step_lnode_one (f : Nat) (sns : List SN) (k : SN) (lev : Nat)
    (x : SN) (v : Option SN) (h : LNode_removed k sns = ([x], v)) :
    iremove (f + 1) (.lnode sns) k lev = some (.OK, v, .tnode x) := by
  simp only [iremove]
  rw [h]

theorem iremove_step_lnode_many (f : Nat) (sns : List SN) (k : SN) (lev : Nat)
    (x y : SN) (rest : List SN) (v : Option SN)
    (h : LNode_removed k sns = (x :: y :: rest, v)) :
    iremove (f + 1) (.lnode sns) k lev =
      some (.OK, v, .lnode (x :: y :: rest)) := by
  simp only [iremove]
  rw [h]

theorem iremove_step_cnode_none (f : Nat) (bs : List (Nat × BNode)) (k : SN)
    (lev : Nat) (h : lookupBranch ((k.hash >>> lev) % 64) bs = none) :
    iremove (f + 1) (.cnode bs) k lev = some (.OK, none, .cnode bs) := by
  simp only [iremove]
  simp only [h]

theorem iremove_step_snode_eq_none (f : Nat) (bs : List (Nat × BNode))
    (k sn : SN) (lev : Nat)
    (hlook : lookupBranch ((k.hash >>> lev) % 64) bs = some (.snode sn))
    (he : sn = k)
    (hc : toContracted (removeBranch ((k.hash >>> lev) % 64) bs) lev = none) :
    iremove (f + 1) (.cnode bs) k lev = none := by
  simp only [iremove]
  simp only [hlook]
  rw [if_pos he, hc]

theorem iremove_step_snode_eq_some (f : Nat) (bs : List (Nat × BNode))
    (k sn : SN) (lev : Nat) (m3 : MNode)
    (hlook : lookupBranch ((k.hash >>> lev) % 64) bs = some (.snode sn))
    (he : sn = k)
    (hc : toContracted (removeBranch ((k.hash >>> lev) % 64) bs) lev =
      some m3) :
    iremove (f + 1) (.cnode bs) k lev = some (.OK, some sn, m3) := by
  simp only [iremove]
  simp only [hlook]
  rw [if_pos he, hc]

theorem iremove_step_snode_ne (f : Nat) (bs : List (Nat × BNode))
    (k sn : SN) (lev : Nat)
    (hlook : lookupBranch ((k.hash >>> lev) % 64) bs = some (.snode sn))
    (hne : ¬ sn = k) :
    iremove (f + 1) (.cnode bs) k lev = some (.OK, none, .cnode bs) := by
  simp only [iremove]
  simp only [hlook]
  rw [if_neg hne]

theorem iremove_step_inode_none (f : Nat) (bs : List (Nat × BNode)) (k : SN)
    (lev : Nat) (m2x : MNode)
    (hlook : lookupBranch ((k.hash >>> lev) % 64) bs = some (.inode m2x))
    (h2 : ∀ s, m2x ≠ MNode.tnode s)
    (hrec : iremove f m2x k (lev + 6) = none) :
    iremove (f + 1) (.cnode bs) k lev = none := by
  simp only [iremove]
  simp only [hlook]
  cases m2x with
  | tnode s => exact absurd rfl (h2 s)
  | cnode bs2 => simp only [hrec]
  | lnode sns2 => simp only [hrec]

theorem iremove_step_inode_ok_tnode_none (f : Nat) (bs : List (Nat × BNode))
    (k : SN) (lev : Nat) (m2x : MNode) (v : Option SN) (s2 : SN)
    (hlook : lookupBranch ((k.hash >>> lev) % 64) bs = some (.inode m2x))
    (h2 : ∀ s, m2x ≠ MNode.tnode s)
    (hrec : iremove f m2x k (lev + 6) = some (.OK, v, .tnode s2))
    (hc : toContracted
      (updateBranch ((k.hash >>> lev) % 64) (.snode s2) bs) lev = none) :
    iremove (f + 1) (.cnode bs) k lev = none := by
  simp only [iremove]
  simp only [hlook]
  cases m2x with
  | tnode s => exact absurd rfl (h2 s)
  | cnode bs2 =>
    simp only [hrec]
    rw [hc]
  | lnode sns2 =>
    simp only [hrec]
    rw [hc]

theorem iremove_step_inode_ok_tnode_some (f : Nat) (bs : List (Nat × BNode))
    (k : SN) (lev : Nat) (m2x : MNode) (v : Option SN) (s2 : SN) (m3 : MNode)
    (hlook : lookupBranch ((k.hash >>> lev) % 64) bs = some (.inode m2x))
    (h2 : ∀ s, m2x ≠ MNode.tnode s)
    (hrec : iremove f m2x k (lev + 6) = some (.OK, v, .tnode s2))
    (hc : toContracted
      (updateBranch ((k.hash >>> lev) % 64) (.snode s2) bs) lev = some m3) :
    iremove (f + 1) (.cnode bs) k lev = some (.OK, v, m3) := by
  simp only [iremove]
  simp only [hlook]
  cases m2x with
  | tnode s => exact absurd rfl (h2 s)
  | cnode bs2 =>
    simp only [hrec]
    rw [hc]
  | lnode sns2 =>
    simp only [hrec]
    rw [hc]

theorem iremove_step_inode_other (f : Nat) (bs : List (Nat × BNode)) (k : SN)
    (lev : Nat) (m2x : MNode) (res : Result) (v : Option SN) (m2b : MNode)
    (hlook : lookupBranch ((k.hash >>> lev) % 64) bs = some (.inode m2x))
    (h2 : ∀ s, m2x ≠ MNode.tnode s)
    (hrec : iremove f m2x k (lev + 6) = some (res, v, m2b))
    (hshape : ∀ s2, ¬(res = .OK ∧ m2b = .tnode s2)) :
    iremove (f + 1) (.cnode bs) k lev =
      some (res, v,
        .cnode (updateBranch ((k.hash >>> lev) % 64) (.inode m2b) bs)) := by
  simp only [iremove]
  simp only [hlook]
  cases m2x with
  | tnode s => exact absurd rfl (h2 s)
  | cnode bs2 =>
    simp only [hrec]
    cases res with
    | RESTART =>
      cases m2b with
      | tnode s2 => rfl
      | cnode bs3 => rfl
      | lnode sns3 => rfl
    | OK =>
      cases m2b with
      | tnode s2 => exact absurd ⟨rfl, rfl⟩ (hshape s2)
      | cnode bs3 => rfl
      | lnode sns3 => rfl
  | lnode sns2 =>
    simp only [hrec]
    cases res with
    | RESTART =>
      cases m2b with
      | tnode s2 => rfl
      | cnode bs3 => rfl
      | lnode sns3 => rfl
    | OK =>
      cases m2b with
      | tnode s2 => exact absurd ⟨rfl, rfl⟩ (hshape s2)
      | cnode bs3 => rfl
      | lnode sns3 => rfl

/-- An erase descent on a well-formed, tomb-free subtrie whose LNode
lists are duplicate-free succeeds with OK and the searched SNode is no
longer contained in the result. -/
theorem iremove_post (k : SN) :
    ∀ fuel m lev, WfM m lev → TombFreeM m → NodupLM m →
      ∀ res v m2, iremove fuel m k lev = some (res, v, m2) →
      res = .OK ∧ ¬ContainsM m2 k := by
  intro fuel
  induction fuel with
  | zero =>
    intro m lev hwf htf hndl res v m2 hrun
    cases hrun
  | succ f ih =>
    intro m lev hwf htf hndl res v m2 hrun
    cases m with
    | tnode s => cases htf
    | lnode sns =>
      have hnds : sns.Nodup := by
        cases hndl with
        | lnode h => exact h
      cases hlr : LNode_removed k sns with
      | mk nln v2 =>
        cases nln with
        | nil =>
          rw [iremove_step_lnode_nil f sns k lev v2 hlr] at hrun
          cases hrun
        | cons x rest =>
          cases rest with
          | nil =>
            rw [iremove_step_lnode_one f sns k lev x v2 hlr] at hrun
            obtain ⟨hres, hv, hm2⟩ := some3_inj hrun
            subst hm2
            refine ⟨hres.symm, ?_⟩
            intro hc
            cases hc
            have := LNode_removed_not_mem k sns hnds
            rw [hlr] at this
            exact this (List.mem_cons_self _ _)
          | cons y rest2 =>
            rw [iremove_step_lnode_many f sns k lev x y rest2 v2 hlr] at hrun
            obtain ⟨hres, hv, hm2⟩ := some3_inj hrun
            subst hm2
            refine ⟨hres.symm, ?_⟩
            intro hc
            cases hc with
            | lnodeMem hmem =>
              have := LNode_removed_not_mem k sns hnds
              rw [hlr] at this
              exact this hmem
    | cnode bs =>
      cases hwf with
      | cnode hnd hslot hwfb =>
      cases htf with
      | cnode htfb =>
      have hndb : ∀ a b, (a, b) ∈ bs → NodupLB b := by
        cases hndl with
        | cnode h => exact h
      cases hlook : lookupBranch ((k.hash >>> lev) % 64) bs with
      | none =>
        rw [iremove_step_cnode_none f bs k lev hlook] at hrun
        obtain ⟨hres, hv, hm2⟩ := some3_inj hrun
        subst hm2
        refine ⟨hres.symm, ?_⟩
        intro hc
        obtain ⟨b, hl2, hb⟩ := contains_cnode_lookup bs k lev hnd hslot hc
        rw [hlook] at hl2
        cases hl2
      | some b =>
        cases b with
        | snode sn =>
          by_cases he : sn = k
          · cases hc2 : toContracted
                (removeBranch ((k.hash >>> lev) % 64) bs) lev with
            | none =>
              rw [iremove_step_snode_eq_none f bs k sn lev hlook he hc2]
                at hrun
              cases hrun
            | some m3 =>
              rw [iremove_step_snode_eq_some f bs k sn lev m3 hlook he hc2]
                at hrun
              obtain ⟨hres, hv, hm2⟩ := some3_inj hrun
              subst hm2
              refine ⟨hres.symm, ?_⟩
              intro hc
              obtain ⟨a1, b1, hm1, hb1⟩ :=
                toContracted_contains _ lev m3 hc2 k hc
              obtain ⟨hm1b, hne1⟩ :=
                mem_removeBranch_strong _ bs hnd (a1, b1) hm1
              exact hne1 (hslot a1 b1 hm1b k hb1).symm
          · rw [iremove_step_snode_ne f bs k sn lev hlook he] at hrun
            obtain ⟨hres, hv, hm2⟩ := some3_inj hrun
            subst hm2
            refine ⟨hres.symm, ?_⟩
            intro hc
            obtain ⟨b2, hl2, hb⟩ := contains_cnode_lookup bs k lev hnd hslot hc
            have hb2 : BNode.snode sn = b2 :=
              Option.some.inj (hlook.symm.trans hl2)
            rw [← hb2] at hb
            cases hb
            exact he rfl
        | inode m2x =>
          by_cases ht : ∃ s, m2x = MNode.tnode s
          · obtain ⟨s, hs⟩ := ht
            subst hs
            have htb := htfb _ _ (lookupBranch_mem _ bs _ hlook)
            cases htb with
            | inode htm => cases htm
          · have h2 : ∀ s, m2x ≠ MNode.tnode s := fun s hs => ht ⟨s, hs⟩
            have hwfc : WfM m2x (lev + 6) := by
              have hb := hwfb _ _ (lookupBranch_mem _ bs _ hlook)
              cases hb with
              | inode hm => exact hm
            have htfc : TombFreeM m2x := by
              have hb := htfb _ _ (lookupBranch_mem _ bs _ hlook)
              cases hb with
              | inode hm => exact hm
            have hndc : NodupLM m2x := by
              have hb := hndb _ _ (lookupBranch_mem _ bs _ hlook)
              cases hb with
              | inode hm => exact hm
            cases hrec : iremove f m2x k (lev + 6) with
            | none =>
              rw [iremove_step_inode_none f bs k lev m2x hlook h2 hrec] at hrun
              cases hrun
            | some r3 =>
              obtain ⟨res2, v2, m2b⟩ := r3
              obtain ⟨hres2, hnc2⟩ :=
                ih m2x (lev + 6) hwfc htfc hndc res2 v2 m2b hrec
              subst hres2
              by_cases hbt : ∃ s2, m2b = MNode.tnode s2
              · obtain ⟨s2, hs2⟩ := hbt
                subst hs2
                cases hc2 : toContracted
                    (updateBranch ((k.hash >>> lev) % 64) (.snode s2) bs)
                    lev with
                | none =>
                  rw [iremove_step_inode_ok_tnode_none f bs k lev m2x v2 s2
                    hlook h2 hrec hc2] at hrun
                  cases hrun
                | some m3 =>
                  rw [iremove_step_inode_ok_tnode_some f bs k lev m2x v2 s2 m3
                    hlook h2 hrec hc2] at hrun
                  obtain ⟨hres, hv, hm2⟩ := some3_inj hrun
                  subst hm2
                  refine ⟨hres.symm, ?_⟩
                  intro hc
                  obtain ⟨a1, b1, hm1, hb1⟩ :=
                    toContracted_contains _ lev m3 hc2 k hc
                  rcases mem_updateBranch_strong _ _ bs hnd (a1, b1) hm1 with
                    h3 | h3
                  · rw [(Prod.mk.inj h3).2] at hb1
                    cases hb1
                    exact hnc2 ContainsM.tnodeSelf
                  · exact h3.2 (hslot a1 b1 h3.1 k hb1).symm
              · have hshape : ∀ s2, ¬(Result.OK = Result.OK ∧
                    m2b = MNode.tnode s2) := fun s2 hx => hbt ⟨s2, hx.2⟩
                rw [iremove_step_inode_other f bs k lev m2x Result.OK v2 m2b
                  hlook h2 hrec hshape] at hrun
                obtain ⟨hres, hv, hm2⟩ := some3_inj hrun
                subst hm2
                refine ⟨hres.symm, ?_⟩
                intro hc
                cases hc with
                | cnodeMem hmem hb =>
                  rcases mem_updateBranch_strong _ _ bs hnd _ hmem with h3 | h3
                  · rw [(Prod.mk.inj h3).2] at hb
                    cases hb with
                    | inodeMem hcm => exact hnc2 hcm
                  · exact h3.2 (hslot _ _ h3.1 k hb).symm

theorem Ctrie_remove_step_none (f : Nat) (m : MNode) (k : SN)
    (hi : iremove (f + 1) m k 0 = none) :
    Ctrie_remove (f + 1) m k = none := by
  simp only [Ctrie_remove]
  rw [hi]

theorem Ctrie_remove_step_ok (f : Nat) (m : MNode) (k : SN) (v : Option SN)
    (m2 : MNode) (hi : iremove (f + 1) m k 0 = some (.OK, v, m2)) :
    Ctrie_remove (f + 1) m k = some (v, m2) := by
  simp only [Ctrie_remove]
  rw [hi]

/-- A successful top-level remove on a well-formed, tomb-free,
duplicate-free trie leaves a trie that no longer contains the removed
SNode. -/
theorem Ctrie_remove_removes (k : SN) (fuel : Nat) (m : MNode)
    (hwf : WfM m 0) (htf : TombFreeM m) (hndl : NodupLM m) (v : Option SN)
    (m2 : MNode) (h : Ctrie_remove fuel m k = some (v, m2)) :
    ¬ContainsM m2 k := by
  cases fuel with
  | zero => cases h
  | succ f =>
    cases hi : iremove (f + 1) m k 0 with
    | none =>
      rw [Ctrie_remove_step_none f m k hi] at h
      exact Option.noConfusion h
    | some r3 =>
      obtain ⟨res2, v2, m2x⟩ := r3
      obtain ⟨hres2, hnc⟩ := iremove_post k (f + 1) m 0 hwf htf hndl res2 v2
        m2x hi
      subst hres2
      rw [Ctrie_remove_step_ok f m k v2 m2x hi] at h
      have hm := (Prod.mk.inj (Option.some.inj h)).2
      rw [← hm]
      exact hnc

/-- Sweep-phase bookkeeping (gc.cpp 484-511 and 599-611): the intern
trie and the shared color map, the identities freed so far, and the
collector's blacklist and redlist. -/
structure SweepSt where
  trie : MNode
  colors : Nat → Nat
  freed : List Nat
  blacklist : List Nat
  redlist : List Nat

/-- SNode::_gc_sweep (string.cpp 241-270) combined with the sweep-loop
dispatch on its result (gc.cpp 491-508): a WHITE leaf is CASed to RED,
removed from the intern trie, and redlisted; a BLACK leaf is blacklisted
and survives; a RED leaf is deleted at once and counted freed; GRAY
aborts (none), as does a failing removal. -/
def SNode_gc_sweep (WHITE fuel : Nat) (st : SweepSt) (s : SN) :
    Option SweepSt :=
  let c := st.colors s.id
  if c = WHITE then
    match Ctrie_remove fuel st.trie s with
    | none => none
    | some (_, t2) =>
      some { st with
        trie := t2,
        colors := fun i => if i = s.id then RED else st.colors i,
        redlist := st.redlist ++ [s.id] }
  else if c = WHITE ^^^ 1 then
    some { st with blacklist := st.blacklist ++ [s.id] }
  else if c = RED then
    some { st with freed := st.freed ++ [s.id] }
  else none

/-- The sweep loop (gc.cpp 491-508) drains the object list. -/
def sweepAll (WHITE fuel : Nat) : List SN → SweepSt → Option SweepSt
  | [], st => some st
  | s :: rest, st =>
    match SNode_gc_sweep WHITE fuel st s with
    | none => none
    | some st2 => sweepAll WHITE fuel rest st2

/-- The redlist claim (gc.cpp 599-611), which runs after the epoch flip
(gc.cpp 525-530) and the flip handshake (gc.cpp 536-597) but still
inside the same collect cycle: every redlisted object is deleted. -/
def claimRed (st : SweepSt) : SweepSt :=
  { st with freed := st.freed ++ st.redlist, redlist := [] }

/-- One collect cycle from the sweep loop through the redlist claim. -/
def collectCycle (WHITE fuel : Nat) (objects : List SN) (st : SweepSt) :
    Option SweepSt :=
  match sweepAll WHITE fuel objects st with
  | none => none
  | some st2 => some (claimRed st2)

/-- C1 (amended): sweeping a WHITE weak-leaf SNode CASes it WHITE to
RED, removes it from the intern trie, and reports RED, so the sweep pass
redlists it without freeing it; the node is then destroyed by the
redlist claim later in the SAME collect cycle, after the epoch flip and
handshake, not at the next sweep; a BLACK leaf is reported as BLACK and
survives the cycle on the blacklist with the trie untouched. -/
theorem sweep_white_red_lifecycle (WHITE fuel : Nat) (st : SweepSt) (s : SN)
    (hW : validWHITE WHITE) (hwf : WfM st.trie 0) (htf : TombFreeM st.trie)
    (hndl : NodupLM st.trie) :
    (st.colors s.id = WHITE →
      ∀ st2, SNode_gc_sweep WHITE fuel st s = some st2 →
        st2.colors s.id = RED ∧ ¬ContainsM st2.trie s ∧
        st2.redlist = st.redlist ++ [s.id] ∧ st2.freed = st.freed ∧
        (claimRed st2).freed = st.freed ++ st2.redlist ∧
        s.id ∈ (claimRed st2).freed) ∧
    (st.colors s.id = WHITE ^^^ 1 →
      SNode_gc_sweep WHITE fuel st s =
        some { st with blacklist := st.blacklist ++ [s.id] }) := by
  constructor
  · intro hwht st2 hsw
    simp only [SNode_gc_sweep] at hsw
    rw [if_pos hwht] at hsw
    cases hr : Ctrie_remove fuel st.trie s with
    | none =>
      rw [hr] at hsw
      cases hsw
    | some p =>
      obtain ⟨v, t2⟩ := p
      rw [hr] at hsw
      have hst2 := Option.some.inj hsw
      rw [← hst2]
      refine ⟨?_, ?_, rfl, rfl, rfl, ?_⟩
      · show (if s.id = s.id then RED else st.colors s.id) = RED
        rw [if_pos rfl]
      · exact Ctrie_remove_removes s fuel st.trie hwf htf hndl v t2 hr
      · show s.id ∈ st.freed ++ (st.redlist ++ [s.id])
        simp
  · intro hb
    simp only [SNode_gc_sweep]
    have hnw : ¬ st.colors s.id = WHITE := by
      rw [hb]
      rcases hW with h0 | h1
      · rw [h0]; decide
      · rw [h1]; decide
    rw [if_neg hnw, if_pos hb]

theorem sweep_white_red_lifecycle_witness :
    validWHITE 0 ∧
    (SweepSt.mk (.cnode [(5, .snode ⟨0, 5, [97]⟩)]) (fun _ => 0) [] []
      []).colors (SN.mk 0 5 [97]).id = 0 ∧
    SNode_gc_sweep 0 2
        ⟨.cnode [(5, .snode ⟨0, 5, [97]⟩)], fun _ => 0, [], [], []⟩
        ⟨0, 5, [97]⟩ =
      some ⟨.cnode [], fun i => if i = 0 then RED else 0, [], [], [0]⟩ ∧
    ((⟨.cnode [], fun i => if i = 0 then RED else 0, [], [], [0]⟩ :
        SweepSt).colors (SN.mk 0 5 [97]).id = RED ∧
      ¬ContainsM (.cnode []) ⟨0, 5, [97]⟩ ∧
      ([0] : List Nat) = [] ++ [0] ∧ ([] : List Nat) = [] ∧
      (claimRed ⟨.cnode [], fun i => if i = 0 then RED else 0, [], [],
        [0]⟩).freed = [] ++ [0] ∧
      (SN.mk 0 5 [97]).id ∈ (claimRed ⟨.cnode [],
        fun i => if i = 0 then RED else 0, [], [], [0]⟩).freed) :=
  ⟨by decide, rfl, rfl,
    (sweep_white_red_lifecycle 0 2
      ⟨.cnode [(5, .snode ⟨0, 5, [97]⟩)], fun _ => 0, [], [], []⟩
      ⟨0, 5, [97]⟩ (by decide)
      (by
        refine WfM.cnode (by simp) ?_ ?_
        · intro a b h s hb
          rcases List.mem_cons.mp h with heq | h2
          · obtain ⟨h1, h3⟩ := Prod.mk.inj heq
            rw [h3] at hb
            cases hb
            rw [h1]
            decide
          · cases h2
        · intro a b h
          rcases List.mem_cons.mp h with heq | h2
          · rw [(Prod.mk.inj heq).2]
            exact WfB.snode
          · cases h2)
      (TombFreeM.cnode (by
        intro a b h
        rcases List.mem_cons.mp h with heq | h2
        · rw [(Prod.mk.inj heq).2]
          exact TombFreeB.snode
        · cases h2))
      (NodupLM.cnode (by
        intro a b h
        rcases List.mem_cons.mp h with heq | h2
        · rw [(Prod.mk.inj heq).2]
          exact NodupLB.snode
        · cases h2))).1 rfl
      ⟨.cnode [], fun i => if i = 0 then RED else 0, [], [], [0]⟩ rfl⟩

/-- Contrary to the deferral in the claim, a swept WHITE SNode is
destroyed within the very collect cycle that turned it RED: one cycle
over a one-SNode trie whose node is WHITE ends with that node's identity
on the freed list (the redlist claim deletes it after the flip and
handshake, before any next sweep). -/
theorem swept_red_freed_same_cycle :
    (collectCycle 0 2 [⟨0, 5, [97]⟩]
      ⟨.cnode [(5, .snode ⟨0, 5, [97]⟩)], fun _ => 0, [], [], []⟩).map
        SweepSt.freed = some [0] := rfl

end Qet
